import Mathlib

/-!
Verification of the hybrid lexical/semantic retrieval core of the
vectorstores repository: the in-memory BM25 scorer
(packages/core/src/vector-store/bm25.ts), the Reciprocal Rank Fusion
combiner (combineResults / rrfScore), the LibSQL query-mode dispatcher
(query / hybridSearch) and the defensive cosine-similarity scorer.

Modelling conventions:
 - JavaScript numbers are modelled by ℚ (exact arithmetic; the claims under
   scrutiny are about the exact formulas, not float rounding).
 - String.prototype.toLowerCase performs Unicode lowercasing; its full table
   is not reproduced here, so the lowercasing of the character sequence is a
   function parameter of the tokenizer.  `asciiLower` agrees with it on
   ASCII text; `unicodeLowerK` additionally maps U+212A (KELVIN SIGN) to
   the word character k, which is its Unicode (and JavaScript) lowercase.
 - Math.log and Math.sqrt are transcendental; they are passed in as an
   explicit function parameter.  The theorems assume only the order
   properties of the logarithm that the claims need (nonnegative at
   arguments ≥ 1, positive at arguments > 1), which the real logarithm and
   its float implementation satisfy.  `linLog` below is a computable
   instance of such a function used by the concrete witnesses.
 - JavaScript plain objects used as string-keyed dictionaries are modelled
   by insertion-ordered association lists: assignment to a fresh key
   appends, assignment to an existing key updates in place.  No claim
   under scrutiny depends on the exotic integer-like-key iteration order
   of JS objects.
 - Fallible code returns Except.
-/

namespace VectorStores

/-- A text node as consumed by the BM25 constructor: `id_` and the text
returned by `getContent(MetadataMode.NONE)`. -/
structure Doc where
  id_ : String
  text : String
deriving DecidableEq, Repr

/-- JS `\w` character class: ASCII letters, digits and underscore. -/
def isWordChar (c : Char) : Bool := c.isAlphanum || c = '_'

/-- Split a character list at every character satisfying `p`, keeping empty
pieces, exactly like `String.prototype.split` with a single-character
separator class; `split(/\W+/)` followed by `filter(Boolean)` gives the
same tokens as splitting at every separator character and then dropping
the empty pieces. -/
def splitChars (p : Char → Bool) : List Char → List (List Char)
  | [] => [[]]
  | c :: cs =>
    let rest := splitChars p cs
    if p c then [] :: rest
    else (c :: rest.headI) :: rest.tail

/-- BM25.tokenize: `text.toLowerCase().split(/\W+/).filter(Boolean)`.  The
Unicode lowercasing done by toLowerCase is passed in as a function on the
character sequence (like the logarithm elsewhere); `asciiLower` and
`unicodeLowerK` below are concrete instances that agree with it on the
inputs of the concrete theorems. -/
def tokenize (lower : List Char → List Char) (text : String) : List String :=
  ((splitChars (fun c => !isWordChar c) (lower text.data)).map
    List.asString).filter (fun s => decide (s ≠ ""))

/-- The ASCII fragment of toLowerCase: agrees with JavaScript's toLowerCase
on ASCII-only text. -/
def asciiLower : List Char → List Char := List.map Char.toLower

/-- asciiLower extended with the Unicode lowercasing of U+212A (KELVIN
SIGN), which toLowerCase sends to the word character k; agrees with
toLowerCase on ASCII text and on the Kelvin sign. -/
def unicodeLowerK : List Char → List Char :=
  List.map (fun c => if c = '\u212A' then 'k' else c.toLower)

/-- The BM25 index over a corpus snapshot.  The TS class precomputes
docLengths / termFreqs / docFreqs / avgdl in its constructor; they are
pure functions of the nodes and the parameters, so the model keeps the
corpus and derives every statistic from it. -/
structure BM25 where
  k1 : ℚ
  b : ℚ
  nodes : List Doc
deriving DecidableEq, Repr

/-- Token list of one node. -/
def nodeTokens (lower : List Char → List Char) (n : Doc) : List String :=
  tokenize lower n.text

/-- this.docCount = nodes.length. -/
def BM25.docCount (idx : BM25) : ℕ := idx.nodes.length

/-- this.docFreqs[term]: incremented once per node whose token set contains
the term. -/
def BM25.docFreq (lower : List Char → List Char) (idx : BM25) (t : String) : ℕ :=
  (idx.nodes.filter (fun n => decide (t ∈ nodeTokens lower n))).length

/-- The node whose statistics are stored under a given id: repeated
assignment to `this.termFreqs[node.id_]` keeps the last node with that id. -/
def BM25.findDoc (idx : BM25) (id : String) : Option Doc :=
  (idx.nodes.filter (fun n => decide (n.id_ = id))).getLast?

/-- this.termFreqs[id][t] ?? 0. -/
def BM25.termFreq (lower : List Char → List Char) (idx : BM25) (id t : String) : ℕ :=
  match idx.findDoc id with
  | some n => (nodeTokens lower n).count t
  | none => 0

/-- this.docLengths[id] ?? 0. -/
def BM25.docLength (lower : List Char → List Char) (idx : BM25) (id : String) : ℕ :=
  match idx.findDoc id with
  | some n => (nodeTokens lower n).length
  | none => 0

/-- Sum of all document token lengths. -/
def BM25.totalLength (lower : List Char → List Char) (idx : BM25) : ℕ :=
  (idx.nodes.map (fun n => (nodeTokens lower n).length)).sum

/-- this.avgdl = totalLength / (docCount || 1). -/
def BM25.avgdl (lower : List Char → List Char) (idx : BM25) : ℚ :=
  (BM25.totalLength lower idx : ℚ) / (max idx.docCount 1 : ℕ)

/-- First-occurrence deduplication: the key iteration order of
`for (const docId in this.termFreqs)`. -/
def dedupKeys : List String → List String
  | [] => []
  | x :: xs => x :: (dedupKeys xs).filter (fun y => decide (y ≠ x))

/-- Iteration order of document ids in BM25.search. -/
def BM25.docIds (idx : BM25) : List String :=
  dedupKeys (idx.nodes.map (fun n => n.id_))

/-- One term's contribution inside the BM25.search loop, as a function of
the raw statistics:

  if (!df) continue;
  idf = log((N - df + 0.5) / (df + 0.5) + 1);
  score += idf * (tf * (k1 + 1)) / (tf + k1 * (1 - b + b * dl / avgdl)). -/
def bm25TermScoreRaw (log : ℚ → ℚ) (k1 b N df tf dl avgdl : ℚ) : ℚ :=
  if df = 0 then 0
  else
    log ((N - df + 1 / 2) / (df + 1 / 2) + 1) *
      ((tf * (k1 + 1)) / (tf + k1 * (1 - b + b * dl / avgdl)))

/-- Document score as a function of the statistics: the inner
`for (const token of queryTokens)` accumulation. -/
def bm25DocScoreStats (log : ℚ → ℚ) (k1 b N avgdl : ℚ) (dfF tfF : String → ℕ)
    (dl : ℚ) (query : List String) : ℚ :=
  (query.map (fun t =>
    bm25TermScoreRaw log k1 b N (dfF t) (tfF t) dl avgdl)).sum

/-- The score BM25.search computes for one document. -/
def BM25.docScore (lower : List Char → List Char) (log : ℚ → ℚ) (idx : BM25)
    (query : String) (id : String) : ℚ :=
  bm25DocScoreStats log idx.k1 idx.b idx.docCount (BM25.avgdl lower idx)
    (BM25.docFreq lower idx) (BM25.termFreq lower idx id)
    (BM25.docLength lower idx id) (tokenize lower query)

/-- BM25.search: score every indexed document, keep strictly positive
scores, sort descending (stable), slice to topK. -/
def BM25.search (lower : List Char → List Char) (log : ℚ → ℚ) (idx : BM25)
    (query : String) (topK : ℕ) : List (String × ℚ) :=
  let scored := idx.docIds.filterMap (fun id =>
    let s := BM25.docScore lower log idx query id
    if 0 < s then some (id, s) else none)
  (scored.mergeSort (fun a b => decide (b.2 ≤ a.2))).take topK

/-- A computable stand-in for the floating-point natural logarithm used by
the witnesses: it has the sign and monotonicity properties the theorems
assume (nonnegative at arguments ≥ 1, positive at arguments > 1,
monotone). -/
def linLog : ℚ → ℚ := fun x => x - 1

/-! ## Rank fusion (combineResults, part_004) -/

/-- VectorStoreQueryResult: `nodes` is an optional field. -/
structure QueryResult (ν : Type) where
  ids : List String
  similarities : List ℚ
  nodes : Option (List ν)

/-- RRF_K = 60. -/
def RRF_K : ℕ := 60

/-- rrfScore(rank) = 1 / (k + rank) with the fixed constant k = 60 (the
only way combineResults calls it). -/
def rrfScore (rank : ℕ) : ℚ := 1 / (RRF_K + rank)

/-- One entry of the combinedScores dictionary. -/
structure RRFEntry (ν : Type) where
  id : String
  score : ℚ
  node : ν

variable {ν : Type}

/-- `results.nodes?.[i]`. -/
def getNodeAt (nodes : Option (List ν)) (i : ℕ) : Option ν :=
  nodes.bind (fun ns => ns[i]?)

/-- Assignment `combinedScores[id] = e`: update in place if the key
exists, append otherwise. -/
def setEntry (e : RRFEntry ν) : List (RRFEntry ν) → List (RRFEntry ν)
  | [] => [e]
  | x :: xs => if x.id = e.id then e :: xs else x :: setEntry e xs

/-- `existing.score += d` on the entry stored under `id`. -/
def addScore (id : String) (d : ℚ) : List (RRFEntry ν) → List (RRFEntry ν)
  | [] => []
  | x :: xs =>
    if x.id = id then ⟨x.id, x.score + d, x.node⟩ :: xs else x :: addScore id d xs

/-- Key-presence test `combinedScores[id]` (truthiness of the lookup). -/
def hasId (acc : List (RRFEntry ν)) (id : String) : Bool :=
  acc.any (fun e => decide (e.id = id))

/-- Body of `vectorResults.ids.forEach((id, i) => ...)`: insert only when
`vectorResults.nodes?.[i]` exists. -/
def vecStep (alpha : ℚ) (nodes : Option (List ν)) (acc : List (RRFEntry ν))
    (p : ℕ × String) : List (RRFEntry ν) :=
  match getNodeAt nodes p.1 with
  | some node => setEntry ⟨p.2, rrfScore (p.1 + 1) * alpha, node⟩ acc
  | none => acc

/-- Body of `bm25Results.ids.forEach((id, i) => ...)`: add the lexical
contribution to an existing entry, otherwise create one only when the
lexical node exists. -/
def bm25Step (alpha : ℚ) (nodes : Option (List ν)) (acc : List (RRFEntry ν))
    (p : ℕ × String) : List (RRFEntry ν) :=
  if hasId acc p.2 then addScore p.2 (rrfScore (p.1 + 1) * (1 - alpha)) acc
  else
    match getNodeAt nodes p.1 with
    | some node => acc ++ [⟨p.2, rrfScore (p.1 + 1) * (1 - alpha), node⟩]
    | none => acc

/-- The combinedScores dictionary after both forEach passes, in key
insertion order. -/
def combinedMap (vr br : QueryResult ν) (alpha : ℚ) : List (RRFEntry ν) :=
  (br.ids.enum).foldl (bm25Step alpha br.nodes)
    ((vr.ids.enum).foldl (vecStep alpha vr.nodes) [])

/-- combineResults: Object.values, stable sort by score descending, slice
to similarityTopK, project the three output arrays. -/
def combineResults (vr br : QueryResult ν) (alpha : ℚ) (similarityTopK : ℕ) :
    QueryResult ν :=
  let sorted :=
    ((combinedMap vr br alpha).mergeSort (fun a b => decide (b.score ≤ a.score))).take
      similarityTopK
  { ids := sorted.map (fun e => e.id)
    similarities := sorted.map (fun e => e.score)
    nodes := some (sorted.map (fun e => e.node)) }

/-- Rank-based RRF contribution of one list to one id: 1/(60 + rank) at
the 1-indexed position of the id, 0 if the id does not occur. -/
def rrfContrib (ids : List String) (id : String) : ℚ :=
  match ids.enum.find? (fun p => decide (p.2 = id)) with
  | some p => rrfScore (p.1 + 1)
  | none => 0

/-- The combined score the specification assigns to an id:
alpha * rrf(vectorRank) + (1 - alpha) * rrf(lexicalRank), with 0 for a
list that does not contain the id. -/
def fusedScore (vr br : QueryResult ν) (alpha : ℚ) (id : String) : ℚ :=
  alpha * rrfContrib vr.ids id + (1 - alpha) * rrfContrib br.ids id

/-! ## Query-mode dispatcher (LibSQLVectorStore.query / hybridSearch) -/

/-- The fields of VectorStoreQuery the dispatcher reads. -/
structure VSQuery where
  mode : String
  queryStr : Option String
  queryEmbedding : Option (List ℚ)
  similarityTopK : Option ℕ
  alpha : Option ℚ
  hybridPrefetch : Option ℕ

/-- JS truthiness of `query.queryStr`: absent or empty string is falsy. -/
def strFalsy : Option String → Bool
  | none => true
  | some s => decide (s = "")

/-- `query.queryEmbedding ?? []`. -/
def embOrEmpty (q : VSQuery) : List ℚ := q.queryEmbedding.getD []

/-- LibSQLVectorStore.hybridSearch, parameterised over the two sub-query
scorers (which the class performs against the database): validate the
preconditions, then over-fetch both sides with `prefetch` and fuse with
combineResults. -/
def hybridSearch (vs : VSQuery → QueryResult ν)
    (bs : VSQuery → Except String (QueryResult ν)) (q : VSQuery) :
    Except String (QueryResult ν) :=
  let mx := q.similarityTopK.getD 2
  if (embOrEmpty q).length = 0 then
    Except.error "queryEmbedding is required for HYBRID mode"
  else if strFalsy q.queryStr then
    Except.error "queryStr is required for HYBRID mode"
  else
    let alpha := q.alpha.getD (1 / 2)
    let prefetch := q.hybridPrefetch.getD (mx * 5)
    let vr := vs { q with similarityTopK := some prefetch, mode := "default" }
    match bs { q with similarityTopK := some prefetch, mode := "bm25" } with
    | Except.ok br => Except.ok (combineResults vr br alpha mx)
    | Except.error e => Except.error e

/-- LibSQLVectorStore.query: route on the mode string. -/
def queryDispatch (vs : VSQuery → QueryResult ν)
    (bs : VSQuery → Except String (QueryResult ν)) (q : VSQuery) :
    Except String (QueryResult ν) :=
  if q.mode = "bm25" then bs q
  else if q.mode = "hybrid" then hybridSearch vs bs q
  else Except.ok (vs q)

/-! ## Cosine similarity (LibSQLVectorStore.cosineSimilarity, part_008) -/

/-- Sum of squares of the first `len` components. -/
def sqNormPart (v : List ℚ) (len : ℕ) : ℚ :=
  ((List.range len).map (fun i => v.getD i 0 * v.getD i 0)).sum

/-- Dot product of the first `len` components. -/
def dotPart (a b : List ℚ) (len : ℕ) : ℚ :=
  ((List.range len).map (fun i => a.getD i 0 * b.getD i 0)).sum

/-- cosineSimilarity: clamp to the shorter length, return 0 on an empty
overlap or a zero norm, otherwise dot / (sqrt(normA) * sqrt(normB)); the
square root is passed in as a function parameter. -/
def cosineSimilarity (sqrt : ℚ → ℚ) (a b : List ℚ) : ℚ :=
  let len := min a.length b.length
  if len = 0 then 0
  else
    let dot := dotPart a b len
    let normA := sqNormPart a len
    let normB := sqNormPart b len
    if normA = 0 ∨ normB = 0 then 0
    else dot / (sqrt normA * sqrt normB)

end VectorStores

namespace VectorStores

/-! ## Basic facts about the dispatcher (claim C5) -/

variable {ν : Type}

theorem hybridSearch_no_embedding (vs : VSQuery → QueryResult ν)
    (bs : VSQuery → Except String (QueryResult ν)) (q : VSQuery)
    (h : embOrEmpty q = []) :
    hybridSearch vs bs q = Except.error "queryEmbedding is required for HYBRID mode" := by
  unfold hybridSearch
  rw [h]
  rfl

theorem hybridSearch_no_queryStr (vs : VSQuery → QueryResult ν)
    (bs : VSQuery → Except String (QueryResult ν)) (q : VSQuery)
    (hne : (embOrEmpty q).length ≠ 0) (h : strFalsy q.queryStr = true) :
    hybridSearch vs bs q = Except.error "queryStr is required for HYBRID mode" := by
  unfold hybridSearch
  rw [if_neg hne, h]
  rfl

/-- Claim C5: a hybrid-mode query with a missing or empty query embedding is
rejected synchronously with a descriptive error, the result does not depend
on either scorer (so neither scorer is invoked, and in particular the vector
scorer is never reached when only a query string is supplied), and a
hybrid-mode query with an embedding but a falsy query string is likewise
rejected before any scoring. -/
theorem hybrid_precondition_fail_fast (vs vs' : VSQuery → QueryResult ν)
    (bs bs' : VSQuery → Except String (QueryResult ν)) (q : VSQuery)
    (hmode : q.mode = "hybrid") :
    ((q.queryEmbedding = none ∨ q.queryEmbedding = some []) →
      queryDispatch vs bs q = Except.error "queryEmbedding is required for HYBRID mode" ∧
      queryDispatch vs bs q = queryDispatch vs' bs' q) ∧
    ((∃ e, q.queryEmbedding = some e ∧ e ≠ []) → strFalsy q.queryStr = true →
      queryDispatch vs bs q = Except.error "queryStr is required for HYBRID mode" ∧
      queryDispatch vs bs q = queryDispatch vs' bs' q) := by
  have hroute : ∀ (f : VSQuery → QueryResult ν) (g : VSQuery → Except String (QueryResult ν)),
      queryDispatch f g q = hybridSearch f g q := by
    intro f g
    unfold queryDispatch
    rw [hmode]
    rw [if_neg (by decide : ¬ ("hybrid" : String) = "bm25")]
    rw [if_pos rfl]
  constructor
  · intro hemb
    have hempty : embOrEmpty q = [] := by
      unfold embOrEmpty
      rcases hemb with h | h <;> rw [h] <;> rfl
    rw [hroute vs bs, hroute vs' bs']
    rw [hybridSearch_no_embedding vs bs q hempty,
      hybridSearch_no_embedding vs' bs' q hempty]
    exact ⟨rfl, rfl⟩
  · rintro ⟨e, he, hne⟩ hstr
    have hlen : (embOrEmpty q).length ≠ 0 := by
      unfold embOrEmpty
      rw [he]
      simpa using hne
    rw [hroute vs bs, hroute vs' bs']
    rw [hybridSearch_no_queryStr vs bs q hlen hstr,
      hybridSearch_no_queryStr vs' bs' q hlen hstr]
    exact ⟨rfl, rfl⟩

/-- Concrete instance of claim C5: hybrid mode with only a query string and
no embedding errors out identically under two unrelated scorer pairs. -/
theorem hybrid_precondition_fail_fast_witness :
    queryDispatch (ν := Unit) (fun _ => ⟨["v"], [1], some [()]⟩)
        (fun _ => Except.ok ⟨["b"], [2], some [()]⟩)
        ⟨"hybrid", some "cat", none, some 1, none, none⟩ =
      Except.error "queryEmbedding is required for HYBRID mode" ∧
    queryDispatch (ν := Unit) (fun _ => ⟨["v"], [1], some [()]⟩)
        (fun _ => Except.ok ⟨["b"], [2], some [()]⟩)
        ⟨"hybrid", some "cat", none, some 1, none, none⟩ =
      queryDispatch (fun _ => ⟨[], [], none⟩) (fun _ => Except.error "db down")
        ⟨"hybrid", some "cat", none, some 1, none, none⟩ :=
  (hybrid_precondition_fail_fast _ _ _ _ _ rfl).1 (Or.inl rfl)

/-! ## Cosine similarity (claim C9) -/

theorem sqNormPart_take (v : List ℚ) (len n : ℕ) (h : len ≤ n) :
    sqNormPart (v.take n) len = sqNormPart v len := by
  unfold sqNormPart
  refine congrArg List.sum (List.map_congr_left ?_)
  intro i hi
  have hilen : i < len := List.mem_range.mp hi
  have : (v.take n).getD i 0 = v.getD i 0 := by
    rw [List.getD_eq_getElem?_getD, List.getD_eq_getElem?_getD, List.getElem?_take,
      if_pos (lt_of_lt_of_le hilen h)]
  rw [this]

theorem dotPart_take (a b : List ℚ) (len n : ℕ) (h : len ≤ n) :
    dotPart (a.take n) (b.take n) len = dotPart a b len := by
  unfold dotPart
  refine congrArg List.sum (List.map_congr_left ?_)
  intro i hi
  have hilen : i < len := List.mem_range.mp hi
  have ha : (a.take n).getD i 0 = a.getD i 0 := by
    rw [List.getD_eq_getElem?_getD, List.getD_eq_getElem?_getD, List.getElem?_take,
      if_pos (lt_of_lt_of_le hilen h)]
  have hb : (b.take n).getD i 0 = b.getD i 0 := by
    rw [List.getD_eq_getElem?_getD, List.getD_eq_getElem?_getD, List.getElem?_take,
      if_pos (lt_of_lt_of_le hilen h)]
  rw [ha, hb]

/-- Claim C9: cosineSimilarity operates on the shorter shared prefix of the
two embeddings (truncating both inputs to the minimum length does not change
the result), and returns 0 — instead of failing — when either vector is
empty or when either truncated vector has zero squared norm. -/
theorem cosineSimilarity_defensive (sqrt : ℚ → ℚ) (a b : List ℚ) :
    cosineSimilarity sqrt a b =
      cosineSimilarity sqrt (a.take (min a.length b.length))
        (b.take (min a.length b.length)) ∧
    ((a = [] ∨ b = []) → cosineSimilarity sqrt a b = 0) ∧
    ((sqNormPart a (min a.length b.length) = 0 ∨
        sqNormPart b (min a.length b.length) = 0) →
      cosineSimilarity sqrt a b = 0) := by
  refine ⟨?_, ?_, ?_⟩
  · set len := min a.length b.length with hlen
    have hta : (a.take len).length = len := by
      rw [List.length_take]
      exact min_eq_left (min_le_left _ _)
    have htb : (b.take len).length = len := by
      rw [List.length_take]
      exact min_eq_left (min_le_right _ _)
    unfold cosineSimilarity
    rw [hta, htb, min_self, ← hlen]
    by_cases h0 : len = 0
    · rw [if_pos h0, if_pos h0]
    · rw [if_neg h0, if_neg h0,
        sqNormPart_take a len len le_rfl, sqNormPart_take b len len le_rfl,
        dotPart_take a b len len le_rfl]
  · intro h
    have h0 : min a.length b.length = 0 := by
      rcases h with h | h <;> rw [h] <;> simp
    unfold cosineSimilarity
    rw [if_pos h0]
  · intro h
    unfold cosineSimilarity
    by_cases h0 : min a.length b.length = 0
    · rw [if_pos h0]
    · rw [if_neg h0, if_pos h]

/-- Concrete instance of claim C9: unequal lengths are clamped rather than
an error, and a zero-norm shared prefix yields 0. -/
theorem cosineSimilarity_defensive_witness :
    cosineSimilarity (fun x => x) [1, 2] [3, 4, 5] =
      cosineSimilarity (fun x => x) [1, 2] [3, 4] ∧
    cosineSimilarity (fun x => x) [0, 0] [1, 2] = 0 := by
  constructor
  · exact (cosineSimilarity_defensive (fun x => x) [1, 2] [3, 4, 5]).1
  · refine (cosineSimilarity_defensive (fun x => x) [0, 0] [1, 2]).2.2 (Or.inl ?_)
    norm_num [sqNormPart, List.range_succ]

/-! ## Rank-only fusion (claim C3) -/

/-- Claim C3: the output of combineResults depends only on the id sequences
and node payloads of its two inputs, never on the raw similarity values, and
the RRF contribution of any rank-1 entry is exactly 1/61 (times its blend
weight) independently of the raw score that produced the rank. -/
theorem combineResults_rank_only (vr vr' br br' : QueryResult ν) (alpha : ℚ)
    (topK : ℕ) (hvi : vr.ids = vr'.ids) (hvn : vr.nodes = vr'.nodes)
    (hbi : br.ids = br'.ids) (hbn : br.nodes = br'.nodes) :
    combineResults vr br alpha topK = combineResults vr' br' alpha topK ∧
    rrfScore 1 = 1 / 61 := by
  constructor
  · obtain ⟨vi, vs, vn⟩ := vr
    obtain ⟨vi', vs', vn'⟩ := vr'
    obtain ⟨bi, bs, bn⟩ := br
    obtain ⟨bi', bs', bn'⟩ := br'
    cases hvi
    cases hvn
    cases hbi
    cases hbn
    rfl
  · norm_num [rrfScore, RRF_K]

/-- Concrete instance of claim C3: radically different similarity values,
identical fused output. -/
theorem combineResults_rank_only_witness :
    combineResults (ν := Unit) ⟨["a", "b"], [99/100, 1/2], some [(), ()]⟩
        ⟨["b"], [473/10], some [()]⟩ (1/2) 10 =
      combineResults (ν := Unit) ⟨["a", "b"], [0, -3], some [(), ()]⟩
        ⟨["b"], [1/1000], some [()]⟩ (1/2) 10 ∧
    rrfScore 1 = 1 / 61 :=
  combineResults_rank_only _ _ _ _ (1/2) 10 rfl rfl rfl rfl

end VectorStores

namespace VectorStores

/-! ## Tokenizer lemmas and empty-result conditions (claim C8) -/

theorem isWordChar_toLower (c : Char) (h : isWordChar c = false) :
    isWordChar c.toLower = false := by
  have hc : Char.toLower c = c := by
    by_cases hr : c.toNat ≥ 65 ∧ c.toNat ≤ 90
    · exfalso
      have hup : c.isUpper = true := by
        simp only [Char.isUpper, Bool.and_eq_true, decide_eq_true_eq]
        have h1 : (65 : UInt32) ≤ c.val := by
          have h65 := hr.1
          simp only [Char.toNat] at h65
          exact h65
        have h2 : c.val ≤ (90 : UInt32) := by
          have h90 := hr.2
          simp only [Char.toNat] at h90
          exact h90
        exact ⟨h1, h2⟩
      simp [isWordChar, Char.isAlphanum, Char.isAlpha, hup] at h
    · simp [Char.toLower, hr]
  rw [hc]
  exact h

theorem splitChars_all_sep (p : Char → Bool) (cs : List Char)
    (h : ∀ c ∈ cs, p c = true) :
    ∀ piece ∈ splitChars p cs, piece = ([] : List Char) := by
  induction cs with
  | nil =>
    intro piece hp
    simpa [splitChars] using hp
  | cons c cs ih =>
    intro piece hp
    have hc : p c = true := h c (List.mem_cons_self c cs)
    have hstep : splitChars p (c :: cs) = [] :: splitChars p cs := by
      simp [splitChars, hc]
    rw [hstep] at hp
    rcases List.mem_cons.mp hp with hp1 | hp1
    · exact hp1
    · exact ih (fun x hx => h x (List.mem_cons_of_mem c hx)) piece hp1

theorem tokenize_eq_nil (lower : List Char → List Char) (q : String)
    (h : ∀ c ∈ lower q.data, isWordChar c = false) :
    tokenize lower q = [] := by
  unfold tokenize
  rw [List.filter_eq_nil_iff]
  intro s hs
  obtain ⟨piece, hpiece, rfl⟩ := List.mem_map.mp hs
  have hall : ∀ c ∈ lower q.data, (fun c => !isWordChar c) c = true := by
    intro c hc
    simp [h c hc]
  have := splitChars_all_sep _ _ hall piece hpiece
  subst this
  decide

theorem asciiLower_nonword (q : String) (h : ∀ c ∈ q.data, isWordChar c = false) :
    ∀ c ∈ asciiLower q.data, isWordChar c = false := by
  intro c hc
  obtain ⟨c0, hc0, rfl⟩ := List.mem_map.mp hc
  exact isWordChar_toLower c0 (h c0 hc0)

/-- Claim C8 (amended): BM25 search over an empty corpus returns an empty
result list for every query, parameters and lowercasing; a query string
whose LOWERCASED character sequence contains no word characters (in
particular the empty string) returns an empty result list over every
corpus; and under the ASCII lowercasing an all-non-word-character query
already suffices.  Neither case is an error.  The unconditional
all-non-word-query statement is false of the Unicode lowercasing the code
uses, see the counterexample below. -/
theorem bm25_empty_result_conditions (log : ℚ → ℚ) :
    (∀ (lower : List Char → List Char) (k1 b : ℚ) (q : String) (topK : ℕ),
      BM25.search lower log ⟨k1, b, []⟩ q topK = []) ∧
    (∀ (lower : List Char → List Char) (idx : BM25) (q : String) (topK : ℕ),
      (∀ c ∈ lower q.data, isWordChar c = false) →
      BM25.search lower log idx q topK = []) ∧
    (∀ (idx : BM25) (q : String) (topK : ℕ),
      (∀ c ∈ q.data, isWordChar c = false) →
      BM25.search asciiLower log idx q topK = []) := by
  have h2 : ∀ (lower : List Char → List Char) (idx : BM25) (q : String) (topK : ℕ),
      (∀ c ∈ lower q.data, isWordChar c = false) →
      BM25.search lower log idx q topK = [] := by
    intro lower idx q topK h
    unfold BM25.search
    have hscored : idx.docIds.filterMap (fun id =>
        let s := BM25.docScore lower log idx q id
        if 0 < s then some (id, s) else none) = [] := by
      rw [List.filterMap_eq_nil_iff]
      intro id _
      have hz : BM25.docScore lower log idx q id = 0 := by
        unfold BM25.docScore
        rw [tokenize_eq_nil lower q h]
        rfl
      simp only [hz]
      rfl
    rw [hscored]
    simp [List.mergeSort_nil]
  refine ⟨?_, h2, ?_⟩
  · intro lower k1 b q topK
    simp [BM25.search, BM25.docIds, dedupKeys, List.mergeSort_nil]
  · intro idx q topK h
    exact h2 asciiLower idx q topK (asciiLower_nonword q h)

/-- Concrete instance of claim C8: an all-punctuation ASCII query over a
nonempty corpus and an arbitrary query over the empty corpus both return
the empty list. -/
theorem bm25_empty_result_conditions_witness :
    BM25.search asciiLower linLog ⟨3/2, 3/4, []⟩ "dog" 5 = [] ∧
    BM25.search asciiLower linLog ⟨3/2, 3/4, [⟨"1", "the cat"⟩]⟩ "?! .," 5 = [] := by
  constructor
  · exact (bm25_empty_result_conditions linLog).1 asciiLower (3/2) (3/4) "dog" 5
  · exact (bm25_empty_result_conditions linLog).2.2 ⟨3/2, 3/4, [⟨"1", "the cat"⟩]⟩
      "?! .," 5 (by decide)

/-- Claim C8 counterexample: the query consisting of the single character
U+212A (KELVIN SIGN) is made of non-word characters only, yet Unicode
lowercasing — which JavaScript's toLowerCase performs — turns it into the
word character k, so on a corpus containing the token "k" the search
returns a nonempty result list; the all-non-word-character conjunct of the
claim is therefore false of the program. -/
theorem bm25_nonword_unicode_counterexample :
    (∀ c ∈ String.data "\u212A", isWordChar c = false) ∧
    BM25.search unicodeLowerK linLog ⟨3/2, 3/4, [⟨"1", "k"⟩]⟩ "\u212A" 5 ≠ [] := by
  constructor
  · decide
  · have htok : tokenize unicodeLowerK "\u212A" = ["k"] := by decide
    have hdf : BM25.docFreq unicodeLowerK ⟨3/2, 3/4, [⟨"1", "k"⟩]⟩ "k" = 1 := by decide
    have htf : BM25.termFreq unicodeLowerK ⟨3/2, 3/4, [⟨"1", "k"⟩]⟩ "1" "k" = 1 := by decide
    have hdl : BM25.docLength unicodeLowerK ⟨3/2, 3/4, [⟨"1", "k"⟩]⟩ "1" = 1 := by decide
    have hdc : BM25.docCount ⟨3/2, 3/4, [⟨"1", "k"⟩]⟩ = 1 := by decide
    have havg : BM25.avgdl unicodeLowerK ⟨3/2, 3/4, [⟨"1", "k"⟩]⟩ = 1 := by
      have ht : BM25.totalLength unicodeLowerK ⟨3/2, 3/4, [⟨"1", "k"⟩]⟩ = 1 := by decide
      rw [BM25.avgdl, ht, hdc]
      norm_num
    have hds : BM25.docScore unicodeLowerK linLog ⟨3/2, 3/4, [⟨"1", "k"⟩]⟩ "\u212A" "1" =
        1/3 := by
      unfold BM25.docScore bm25DocScoreStats
      rw [htok]
      simp only [List.map_cons, List.map_nil, List.sum_cons, List.sum_nil]
      rw [hdf, htf, hdl, hdc, havg]
      norm_num [bm25TermScoreRaw, linLog]
    have hsearch : BM25.search unicodeLowerK linLog ⟨3/2, 3/4, [⟨"1", "k"⟩]⟩ "\u212A" 5 =
        [("1", 1/3)] := by
      unfold BM25.search
      have hdid : BM25.docIds ⟨3/2, 3/4, [⟨"1", "k"⟩]⟩ = ["1"] := by decide
      rw [hdid]
      have hstep : (["1"] : List String).filterMap (fun id =>
          let s := BM25.docScore unicodeLowerK linLog ⟨3/2, 3/4, [⟨"1", "k"⟩]⟩ "\u212A" id
          if 0 < s then some (id, s) else none) = [("1", 1/3)] := by
        simp only [List.filterMap_cons, List.filterMap_nil]
        rw [hds]
        norm_num
      rw [hstep]
      simp [List.mergeSort_singleton]
    rw [hsearch]
    simp

/-! ## BM25 score shape (claim C2) -/

/-- Modelled from the spec's words (for comparison with the code): the
document score as "the sum over distinct query tokens present in the corpus
vocabulary" of the BM25 term formula; tokens outside the vocabulary
contribute zero through the df = 0 branch of bm25TermScoreRaw. -/
def bm25DocScoreSpecDistinct (lower : List Char → List Char) (log : ℚ → ℚ)
    (idx : BM25) (query id : String) : ℚ :=
  ∑ t ∈ (tokenize lower query).toFinset,
    bm25TermScoreRaw log idx.k1 idx.b idx.docCount (BM25.docFreq lower idx t)
      (BM25.termFreq lower idx id t) (BM25.docLength lower idx id)
      (BM25.avgdl lower idx)

/-- Example corpus: one document whose text is one occurrence of "dog". -/
def exampleSingleDog : BM25 := ⟨3/2, 3/4, [⟨"1", "dog"⟩]⟩

theorem exampleSingleDog_avgdl : BM25.avgdl asciiLower exampleSingleDog = 1 := by
  have h1 : BM25.totalLength asciiLower exampleSingleDog = 1 := by decide
  have h2 : BM25.docCount exampleSingleDog = 1 := by decide
  rw [BM25.avgdl, h1, h2]
  norm_num

/-- Claim C2 counterexample: on the corpus {"dog"} the query "dog dog"
scores the document 2/3 (one term contribution per query-token occurrence)
while the spec's distinct-token sum gives 1/3, so the code score is not the
sum over distinct query tokens. -/
theorem bm25_distinct_sum_counterexample :
    BM25.docScore asciiLower linLog exampleSingleDog "dog dog" "1" ≠
      bm25DocScoreSpecDistinct asciiLower linLog exampleSingleDog "dog dog" "1" := by
  have htok : tokenize asciiLower "dog dog" = ["dog", "dog"] := by decide
  have hdf : BM25.docFreq asciiLower exampleSingleDog "dog" = 1 := by decide
  have htf : BM25.termFreq asciiLower exampleSingleDog "1" "dog" = 1 := by decide
  have hdl : BM25.docLength asciiLower exampleSingleDog "1" = 1 := by decide
  have hdc : BM25.docCount exampleSingleDog = 1 := by decide
  have hk1 : exampleSingleDog.k1 = 3/2 := rfl
  have hb : exampleSingleDog.b = 3/4 := rfl
  have hterm : bm25TermScoreRaw linLog exampleSingleDog.k1 exampleSingleDog.b
      (BM25.docCount exampleSingleDog) (BM25.docFreq asciiLower exampleSingleDog "dog")
      (BM25.termFreq asciiLower exampleSingleDog "1" "dog")
      (BM25.docLength asciiLower exampleSingleDog "1")
      (BM25.avgdl asciiLower exampleSingleDog) = 1/3 := by
    rw [hdf, htf, hdl, hdc, hk1, hb, exampleSingleDog_avgdl]
    norm_num [bm25TermScoreRaw, linLog]
  have hcode : BM25.docScore asciiLower linLog exampleSingleDog "dog dog" "1" = 2/3 := by
    unfold BM25.docScore bm25DocScoreStats
    rw [htok]
    simp only [List.map_cons, List.map_nil, List.sum_cons, List.sum_nil]
    rw [hterm]
    norm_num
  have hspec : bm25DocScoreSpecDistinct asciiLower linLog exampleSingleDog
      "dog dog" "1" = 1/3 := by
    unfold bm25DocScoreSpecDistinct
    rw [htok]
    have : (["dog", "dog"] : List String).toFinset = {"dog"} := by decide
    rw [this, Finset.sum_singleton, hterm]
  rw [hcode, hspec]
  norm_num

/-- Claim C2 (amended): the BM25 score of a document is the sum over
distinct query tokens present in the corpus vocabulary of the token's
multiplicity in the query times the BM25 term formula — i.e. the code sums
the formula once per query-token occurrence, not once per distinct token;
tokens absent from the vocabulary contribute zero and cause no error. -/
theorem bm25_score_grouped_by_occurrences (lower : List Char → List Char)
    (log : ℚ → ℚ) (idx : BM25) (query id : String) :
    BM25.docScore lower log idx query id =
      ∑ t ∈ (tokenize lower query).toFinset.filter
          (fun t => BM25.docFreq lower idx t ≠ 0),
        ((tokenize lower query).count t : ℚ) *
          bm25TermScoreRaw log idx.k1 idx.b idx.docCount (BM25.docFreq lower idx t)
            (BM25.termFreq lower idx id t) (BM25.docLength lower idx id)
            (BM25.avgdl lower idx) := by
  unfold BM25.docScore bm25DocScoreStats
  rw [Finset.sum_filter, Finset.sum_list_map_count]
  apply Finset.sum_congr rfl
  intro t _
  rw [nsmul_eq_mul]
  by_cases h : BM25.docFreq lower idx t = 0
  · rw [if_neg (not_not_intro h)]
    have : bm25TermScoreRaw log idx.k1 idx.b idx.docCount (BM25.docFreq lower idx t)
        (BM25.termFreq lower idx id t) (BM25.docLength lower idx id)
        (BM25.avgdl lower idx) = 0 := by
      unfold bm25TermScoreRaw
      rw [if_pos (by exact_mod_cast congrArg Nat.cast h)]
    rw [this, mul_zero]
  · rw [if_pos h]

end VectorStores

namespace VectorStores

/-! ## BM25 term-frequency monotonicity (claim C6) -/

theorem bm25TermScoreRaw_tf_mono (log : ℚ → ℚ) (hlog : ∀ x, 1 ≤ x → 0 ≤ log x)
    (k1 b N df dl avgdl : ℚ) (hk1 : 0 ≤ k1) (hb0 : 0 ≤ b) (hb1 : b ≤ 1)
    (hdf0 : 0 ≤ df) (hdfN : df ≤ N) (hdl : 0 ≤ dl) (havg : 0 ≤ avgdl)
    (tf tf' : ℚ) (htf0 : 0 ≤ tf) (h : tf ≤ tf') :
    bm25TermScoreRaw log k1 b N df tf dl avgdl ≤
      bm25TermScoreRaw log k1 b N df tf' dl avgdl := by
  unfold bm25TermScoreRaw
  by_cases hdf : df = 0
  · simp [hdf]
  · rw [if_neg hdf, if_neg hdf]
    have hKnn : 0 ≤ k1 * (1 - b + b * dl / avgdl) := by
      apply mul_nonneg hk1
      have : 0 ≤ b * dl / avgdl := div_nonneg (mul_nonneg hb0 hdl) havg
      linarith
    have hidf : 0 ≤ log ((N - df + 1 / 2) / (df + 1 / 2) + 1) := by
      apply hlog
      have hnum : 0 ≤ N - df + 1 / 2 := by linarith
      have hden : 0 ≤ df + 1 / 2 := by linarith
      have := div_nonneg hnum hden
      linarith
    apply mul_le_mul_of_nonneg_left _ hidf
    set K := k1 * (1 - b + b * dl / avgdl) with hK
    rcases eq_or_lt_of_le htf0 with h0 | h0
    · rw [← h0, zero_mul, zero_div]
      have htf'0 : 0 ≤ tf' := le_trans htf0 h
      exact div_nonneg (mul_nonneg htf'0 (by linarith)) (by linarith)
    · have htf'0 : 0 < tf' := lt_of_lt_of_le h0 h
      rw [div_le_div_iff₀ (by linarith) (by linarith)]
      nlinarith [mul_le_mul_of_nonneg_right h hKnn]

/-- Claim C6: for parameters k1 ≥ 0 and b in [0,1], a nonnegative corpus
logarithm, and statistics in which the document-frequency of every term is
at most the document count, increasing a fixed term's frequency in a
document while holding the document length and all other statistics
constant never decreases the document's BM25 score. -/
theorem bm25_tf_monotone (log : ℚ → ℚ) (hlog : ∀ x, 1 ≤ x → 0 ≤ log x)
    (k1 b : ℚ) (hk1 : 0 ≤ k1) (hb0 : 0 ≤ b) (hb1 : b ≤ 1)
    (N : ℕ) (dfF : String → ℕ) (hdf : ∀ s, dfF s ≤ N)
    (t : String) (tfF tfF' : String → ℕ)
    (hagree : ∀ s, s ≠ t → tfF s = tfF' s) (hincr : tfF t ≤ tfF' t)
    (dl avgdl : ℚ) (hdl : 0 ≤ dl) (havg : 0 ≤ avgdl) (query : List String) :
    bm25DocScoreStats log k1 b N avgdl dfF tfF dl query ≤
      bm25DocScoreStats log k1 b N avgdl dfF tfF' dl query := by
  unfold bm25DocScoreStats
  apply List.sum_le_sum
  intro s _
  by_cases hst : s = t
  · subst hst
    exact bm25TermScoreRaw_tf_mono log hlog k1 b N (dfF s) dl avgdl hk1 hb0 hb1
      (Nat.cast_nonneg _) (by exact_mod_cast hdf s) hdl havg
      (tfF s) (tfF' s) (Nat.cast_nonneg _) (by exact_mod_cast hincr)
  · rw [hagree s hst]

/-- Concrete instance of claim C6: raising the frequency of "dog" from 1
to 2 in a document of the example statistics does not decrease its score. -/
theorem bm25_tf_monotone_witness :
    bm25DocScoreStats linLog (3/2) (3/4) 2 1 (fun _ => 1)
        (fun s => if s = "dog" then 1 else 0) 1 ["dog"] ≤
      bm25DocScoreStats linLog (3/2) (3/4) 2 1 (fun _ => 1)
        (fun s => if s = "dog" then 2 else 0) 1 ["dog"] :=
  bm25_tf_monotone linLog
    (fun x hx => by simp only [linLog]; linarith)
    (3/2) (3/4) (by norm_num) (by norm_num) (by norm_num)
    2 (fun _ => 1) (fun _ => by norm_num)
    "dog" (fun s => if s = "dog" then 1 else 0) (fun s => if s = "dog" then 2 else 0)
    (fun s hs => by simp [hs]) (by simp)
    1 1 (by norm_num) (by norm_num) ["dog"]

end VectorStores

namespace VectorStores

/-! ## BM25 length normalization (claim C7) -/

theorem bm25TermScoreRaw_b0 (log : ℚ → ℚ) (k1 N df tf dl dl' av av' : ℚ) :
    bm25TermScoreRaw log k1 0 N df tf dl' av' =
      bm25TermScoreRaw log k1 0 N df tf dl av := by
  unfold bm25TermScoreRaw
  by_cases hdf : df = 0
  · simp [hdf]
  · rw [if_neg hdf, if_neg hdf]
    norm_num

theorem bm25TermScoreRaw_pad_le (log : ℚ → ℚ) (hlog0 : ∀ x, 1 ≤ x → 0 ≤ log x)
    (k1 N df tf dl dl' av av' : ℚ) (hk1 : 0 < k1)
    (hdf0 : 0 ≤ df) (hdfN : df ≤ N) (htf : 0 ≤ tf)
    (hdl : 0 ≤ dl) (hav : 0 ≤ av)
    (hratio : dl / av ≤ dl' / av') :
    bm25TermScoreRaw log k1 (3/4) N df tf dl' av' ≤
      bm25TermScoreRaw log k1 (3/4) N df tf dl av := by
  unfold bm25TermScoreRaw
  by_cases hdf : df = 0
  · simp [hdf]
  · rw [if_neg hdf, if_neg hdf]
    have hidf : 0 ≤ log ((N - df + 1 / 2) / (df + 1 / 2) + 1) := by
      apply hlog0
      have hnum : 0 ≤ N - df + 1 / 2 := by linarith
      have hden : 0 ≤ df + 1 / 2 := by linarith
      have := div_nonneg hnum hden
      linarith
    apply mul_le_mul_of_nonneg_left _ hidf
    have hr0 : 0 ≤ 3 / 4 * dl / av := by
      rw [mul_div_assoc]
      have : (0:ℚ) ≤ dl / av := div_nonneg hdl hav
      linarith
    have hD : 0 < tf + k1 * (1 - 3 / 4 + 3 / 4 * dl / av) := by nlinarith
    have hDD : tf + k1 * (1 - 3 / 4 + 3 / 4 * dl / av) ≤
        tf + k1 * (1 - 3 / 4 + 3 / 4 * dl' / av') := by
      have h1 : 3 / 4 * dl / av ≤ 3 / 4 * dl' / av' := by
        rw [mul_div_assoc, mul_div_assoc]
        exact mul_le_mul_of_nonneg_left hratio (by norm_num)
      nlinarith
    exact div_le_div_of_nonneg_left (mul_nonneg htf (by linarith)) hD hDD

theorem bm25TermScoreRaw_pad_lt (log : ℚ → ℚ) (hlog1 : ∀ x, 1 < x → 0 < log x)
    (k1 N df tf dl dl' av av' : ℚ) (hk1 : 0 < k1)
    (hdf1 : 1 ≤ df) (hdfN : df ≤ N) (htf : 1 ≤ tf)
    (hdl : 0 ≤ dl) (hav : 0 ≤ av)
    (hratio : dl / av < dl' / av') :
    bm25TermScoreRaw log k1 (3/4) N df tf dl' av' <
      bm25TermScoreRaw log k1 (3/4) N df tf dl av := by
  unfold bm25TermScoreRaw
  rw [if_neg (by intro h; rw [h] at hdf1; linarith), if_neg (by intro h; rw [h] at hdf1; linarith)]
  have hidf : 0 < log ((N - df + 1 / 2) / (df + 1 / 2) + 1) := by
    apply hlog1
    have hnum : 0 < N - df + 1 / 2 := by linarith
    have hden : 0 < df + 1 / 2 := by linarith
    have := div_pos hnum hden
    linarith
  apply mul_lt_mul_of_pos_left _ hidf
  have hr0 : 0 ≤ 3 / 4 * dl / av := by
    rw [mul_div_assoc]
    have : (0:ℚ) ≤ dl / av := div_nonneg hdl hav
    linarith
  have hD : 0 < tf + k1 * (1 - 3 / 4 + 3 / 4 * dl / av) := by nlinarith
  have hDD : tf + k1 * (1 - 3 / 4 + 3 / 4 * dl / av) <
      tf + k1 * (1 - 3 / 4 + 3 / 4 * dl' / av') := by
    have h1 : 3 / 4 * dl / av < 3 / 4 * dl' / av' := by
      rw [mul_div_assoc, mul_div_assoc]
      exact mul_lt_mul_of_pos_left hratio (by norm_num)
    nlinarith
  exact div_lt_div_of_pos_left (by nlinarith) hD hDD

theorem ratio_pad_le (L T Nq : ℚ) (hL : 0 ≤ L) (hLT : L ≤ T) (hN : 0 < Nq)
    (hT : 0 < T) :
    L / (T / Nq) ≤ (L + L) / ((T + L) / Nq) := by
  rw [div_div_eq_mul_div, div_div_eq_mul_div]
  rw [div_le_div_iff₀ hT (by linarith)]
  nlinarith [mul_nonneg (mul_nonneg hL hN.le) (sub_nonneg.mpr hLT)]

theorem ratio_pad_lt (L T Nq : ℚ) (hL : 1 ≤ L) (hLT : L < T) (hN : 0 < Nq) :
    L / (T / Nq) < (L + L) / ((T + L) / Nq) := by
  rw [div_div_eq_mul_div, div_div_eq_mul_div]
  rw [div_lt_div_iff₀ (by linarith) (by linarith)]
  nlinarith [mul_pos (mul_pos (show (0:ℚ) < L by linarith) hN) (sub_pos.mpr hLT)]

theorem docFreq_swap_mid (lower : List Char → List Char) (k1 b : ℚ)
    (pre post : List Doc) (d d' : Doc) (t : String)
    (hiff : (t ∈ nodeTokens lower d') ↔ (t ∈ nodeTokens lower d)) :
    BM25.docFreq lower ⟨k1, b, pre ++ d' :: post⟩ t =
      BM25.docFreq lower ⟨k1, b, pre ++ d :: post⟩ t := by
  unfold BM25.docFreq
  have hd : decide (t ∈ nodeTokens lower d') = decide (t ∈ nodeTokens lower d) :=
    decide_eq_decide.mpr hiff
  simp only [List.filter_append, List.filter_cons, hd, List.length_append]
  by_cases h : t ∈ nodeTokens lower d
  · simp [h]
  · simp [h]

theorem findDoc_mid (k1 b : ℚ) (pre post : List Doc) (x : Doc)
    (hnodup : ((pre ++ x :: post).map Doc.id_).Nodup) :
    BM25.findDoc ⟨k1, b, pre ++ x :: post⟩ x.id_ = some x := by
  unfold BM25.findDoc
  rw [List.map_append, List.map_cons, List.nodup_append] at hnodup
  obtain ⟨hpre, hcons, hdisj⟩ := hnodup
  have hxpost : x.id_ ∉ post.map Doc.id_ := (List.nodup_cons.mp hcons).1
  have hfpre : pre.filter (fun n => decide (n.id_ = x.id_)) = [] := by
    rw [List.filter_eq_nil_iff]
    intro n hn
    simp only [decide_eq_true_eq]
    intro he
    exact hdisj (List.mem_map_of_mem Doc.id_ hn) (by rw [he]; exact List.mem_cons_self _ _)
  have hfpost : post.filter (fun n => decide (n.id_ = x.id_)) = [] := by
    rw [List.filter_eq_nil_iff]
    intro n hn
    simp only [decide_eq_true_eq]
    intro he
    exact hxpost (by rw [← he]; exact List.mem_map_of_mem Doc.id_ hn)
  simp [List.filter_append, List.filter_cons, hfpre, hfpost]

theorem docFreq_le_docCount (lower : List Char → List Char) (idx : BM25) (t : String) :
    BM25.docFreq lower idx t ≤ idx.docCount :=
  List.length_filter_le _ _

theorem docFreq_pos_of_mem (lower : List Char → List Char) (idx : BM25) (n : Doc)
    (t : String) (hn : n ∈ idx.nodes) (ht : t ∈ nodeTokens lower n) :
    1 ≤ BM25.docFreq lower idx t := by
  unfold BM25.docFreq
  have : n ∈ idx.nodes.filter (fun m => decide (t ∈ nodeTokens lower m)) :=
    List.mem_filter.mpr ⟨hn, by simpa⟩
  exact List.length_pos.mpr (List.ne_nil_of_mem this)

end VectorStores

namespace VectorStores

/-- Claim C7 (amended): padding a document with non-query terms (doubling
its token length) does not change its BM25 score when b = 0; with b = 3/4
and k1 > 0 the same padding strictly decreases the score provided the
document contains at least one query term and the rest of the corpus has at
least one token (in a single-document corpus — or one whose other documents
are all empty — padding also rescales avgdl by the same factor and the
score is unchanged, see the counterexample). -/
theorem bm25_length_normalization (lower : List Char → List Char) (log : ℚ → ℚ)
    (hlog0 : ∀ x, 1 ≤ x → 0 ≤ log x) (hlog1 : ∀ x, 1 < x → 0 < log x)
    (k1 : ℚ) (pre post : List Doc) (d d' : Doc) (pad : List String)
    (hid : d'.id_ = d.id_)
    (htoks : nodeTokens lower d' = nodeTokens lower d ++ pad)
    (hlen : pad.length = (nodeTokens lower d).length)
    (query : String) (hdisj : ∀ t ∈ tokenize lower query, t ∉ pad)
    (hnodup : ((pre ++ d :: post).map Doc.id_).Nodup) :
    (BM25.docScore lower log ⟨k1, 0, pre ++ d' :: post⟩ query d.id_ =
        BM25.docScore lower log ⟨k1, 0, pre ++ d :: post⟩ query d.id_) ∧
    (0 < k1 → (∃ t ∈ tokenize lower query, t ∈ nodeTokens lower d) →
      0 < ((pre ++ post).map (fun n => (nodeTokens lower n).length)).sum →
      BM25.docScore lower log ⟨k1, 3/4, pre ++ d' :: post⟩ query d.id_ <
        BM25.docScore lower log ⟨k1, 3/4, pre ++ d :: post⟩ query d.id_) := by
  have hnodup' : ((pre ++ d' :: post).map Doc.id_).Nodup := by
    simpa only [List.map_append, List.map_cons, hid] using hnodup
  have hfind' : ∀ b' : ℚ, BM25.findDoc ⟨k1, b', pre ++ d' :: post⟩ d.id_ = some d' := by
    intro b'
    rw [← hid]
    exact findDoc_mid k1 b' pre post d' hnodup'
  have hfind0 : ∀ b' : ℚ, BM25.findDoc ⟨k1, b', pre ++ d :: post⟩ d.id_ = some d :=
    fun b' => findDoc_mid k1 b' pre post d hnodup
  have htfeq : ∀ (b' : ℚ) t, t ∉ pad →
      BM25.termFreq lower ⟨k1, b', pre ++ d' :: post⟩ d.id_ t =
        BM25.termFreq lower ⟨k1, b', pre ++ d :: post⟩ d.id_ t := by
    intro b' t ht
    unfold BM25.termFreq
    rw [hfind' b', hfind0 b']
    show (nodeTokens lower d').count t = (nodeTokens lower d).count t
    rw [htoks, List.count_append, List.count_eq_zero.mpr ht]
    rfl
  have hdfeq : ∀ (b' : ℚ) t, t ∉ pad →
      BM25.docFreq lower ⟨k1, b', pre ++ d' :: post⟩ t =
        BM25.docFreq lower ⟨k1, b', pre ++ d :: post⟩ t := by
    intro b' t ht
    apply docFreq_swap_mid
    rw [htoks, List.mem_append]
    exact or_iff_left ht
  have hdleq' : ∀ b' : ℚ, BM25.docLength lower ⟨k1, b', pre ++ d' :: post⟩ d.id_ =
      (nodeTokens lower d).length + pad.length := by
    intro b'
    unfold BM25.docLength
    rw [hfind' b']
    show (nodeTokens lower d').length = (nodeTokens lower d).length + pad.length
    rw [htoks, List.length_append]
  have hdleq0 : ∀ b' : ℚ, BM25.docLength lower ⟨k1, b', pre ++ d :: post⟩ d.id_ =
      (nodeTokens lower d).length := by
    intro b'
    unfold BM25.docLength
    rw [hfind0 b']
  have hdceq : ∀ b' : ℚ, BM25.docCount ⟨k1, b', pre ++ d' :: post⟩ =
      BM25.docCount ⟨k1, b', pre ++ d :: post⟩ := by
    intro b'
    simp [BM25.docCount]
  constructor
  · unfold BM25.docScore bm25DocScoreStats
    refine congrArg List.sum (List.map_congr_left ?_)
    intro t ht
    have htp := hdisj t ht
    rw [hdfeq 0 t htp, htfeq 0 t htp, hdceq 0]
    exact bm25TermScoreRaw_b0 log k1 _ _ _ _ _ _ _
  · intro hk1 hex hsum
    obtain ⟨t0, ht0q, ht0d⟩ := hex
    have hLpos : 0 < (nodeTokens lower d).length :=
      List.length_pos.mpr (List.ne_nil_of_mem ht0d)
    have htot0 : BM25.totalLength lower ⟨k1, 3/4, pre ++ d :: post⟩ =
        ((pre ++ post).map (fun n => (nodeTokens lower n).length)).sum +
          (nodeTokens lower d).length := by
      simp only [BM25.totalLength, List.map_append, List.map_cons,
        List.sum_append, List.sum_cons]
      omega
    have htot' : BM25.totalLength lower ⟨k1, 3/4, pre ++ d' :: post⟩ =
        BM25.totalLength lower ⟨k1, 3/4, pre ++ d :: post⟩ + pad.length := by
      simp only [BM25.totalLength, List.map_append, List.map_cons,
        List.sum_append, List.sum_cons, htoks, List.length_append]
      omega
    have hLT : (nodeTokens lower d).length <
        BM25.totalLength lower ⟨k1, 3/4, pre ++ d :: post⟩ := by
      rw [htot0]
      omega
    have hNpos : 0 < BM25.docCount ⟨k1, 3/4, pre ++ d :: post⟩ := by
      simp [BM25.docCount]
    have havg0 : BM25.avgdl lower ⟨k1, 3/4, pre ++ d :: post⟩ =
        (BM25.totalLength lower ⟨k1, 3/4, pre ++ d :: post⟩ : ℚ) /
          (BM25.docCount ⟨k1, 3/4, pre ++ d :: post⟩ : ℚ) := by
      unfold BM25.avgdl
      rw [max_eq_left (by omega : 1 ≤ BM25.docCount ⟨k1, 3/4, pre ++ d :: post⟩)]
    have havg' : BM25.avgdl lower ⟨k1, 3/4, pre ++ d' :: post⟩ =
        ((BM25.totalLength lower ⟨k1, 3/4, pre ++ d :: post⟩ : ℚ) +
            ((nodeTokens lower d).length : ℚ)) /
          (BM25.docCount ⟨k1, 3/4, pre ++ d :: post⟩ : ℚ) := by
      unfold BM25.avgdl
      rw [htot', hdceq (3/4),
        max_eq_left (by omega : 1 ≤ BM25.docCount ⟨k1, 3/4, pre ++ d :: post⟩)]
      rw [hlen]
      push_cast
      ring_nf
    have hLq : (1:ℚ) ≤ ((nodeTokens lower d).length : ℚ) := by exact_mod_cast hLpos
    have hLTq : ((nodeTokens lower d).length : ℚ) <
        (BM25.totalLength lower ⟨k1, 3/4, pre ++ d :: post⟩ : ℚ) := by
      exact_mod_cast hLT
    have hNq : (0:ℚ) < (BM25.docCount ⟨k1, 3/4, pre ++ d :: post⟩ : ℚ) := by
      exact_mod_cast hNpos
    have hcast : (((nodeTokens lower d).length + pad.length : ℕ) : ℚ) =
        ((nodeTokens lower d).length : ℚ) + ((nodeTokens lower d).length : ℚ) := by
      rw [hlen]
      push_cast
      ring
    have hratio_le := ratio_pad_le ((nodeTokens lower d).length : ℚ)
      (BM25.totalLength lower ⟨k1, 3/4, pre ++ d :: post⟩ : ℚ)
      (BM25.docCount ⟨k1, 3/4, pre ++ d :: post⟩ : ℚ)
      (by linarith) hLTq.le hNq (by linarith)
    have hratio_lt := ratio_pad_lt ((nodeTokens lower d).length : ℚ)
      (BM25.totalLength lower ⟨k1, 3/4, pre ++ d :: post⟩ : ℚ)
      (BM25.docCount ⟨k1, 3/4, pre ++ d :: post⟩ : ℚ)
      hLq hLTq hNq
    unfold BM25.docScore bm25DocScoreStats
    apply List.sum_lt_sum
    · intro t ht
      have htp := hdisj t ht
      rw [hdfeq (3/4) t htp, htfeq (3/4) t htp, hdceq (3/4), hdleq' (3/4),
        hdleq0 (3/4), havg', havg0, hcast]
      exact bm25TermScoreRaw_pad_le log hlog0 k1 _ _ _ _ _ _ _ hk1
        (Nat.cast_nonneg _) (by exact_mod_cast docFreq_le_docCount _ _ t)
        (Nat.cast_nonneg _) (Nat.cast_nonneg _)
        (div_nonneg (Nat.cast_nonneg _) (Nat.cast_nonneg _)) hratio_le
    · refine ⟨t0, ht0q, ?_⟩
      have htp := hdisj t0 ht0q
      rw [hdfeq (3/4) t0 htp, htfeq (3/4) t0 htp, hdceq (3/4), hdleq' (3/4),
        hdleq0 (3/4), havg', havg0, hcast]
      have hdf1 : 1 ≤ BM25.docFreq lower ⟨k1, 3/4, pre ++ d :: post⟩ t0 :=
        docFreq_pos_of_mem _ _ d t0 (by simp) ht0d
      have htf1 : 1 ≤ BM25.termFreq lower ⟨k1, 3/4, pre ++ d :: post⟩ d.id_ t0 := by
        unfold BM25.termFreq
        rw [hfind0 (3/4)]
        exact List.count_pos_iff.mpr ht0d
      exact bm25TermScoreRaw_pad_lt log hlog1 k1 _ _ _ _ _ _ _ hk1
        (by exact_mod_cast hdf1) (by exact_mod_cast docFreq_le_docCount _ _ t0)
        (by exact_mod_cast htf1) (Nat.cast_nonneg _)
        (div_nonneg (Nat.cast_nonneg _) (Nat.cast_nonneg _)) hratio_lt

end VectorStores

namespace VectorStores

/-- Claim C7 counterexample: in a single-document corpus with the default
parameters (k1 = 3/2, b = 3/4), doubling the document by padding it with
the non-query term "cat" leaves the BM25 score of the document for the
query "dog" unchanged (both sides score idf * 1), because avgdl rescales by
the same factor as the document length; the claim's unconditional "strictly
decreases" is therefore false. -/
theorem bm25_padding_counterexample :
    BM25.docScore asciiLower linLog ⟨3/2, 3/4, [⟨"1", "dog cat"⟩]⟩ "dog" "1" =
      BM25.docScore asciiLower linLog ⟨3/2, 3/4, [⟨"1", "dog"⟩]⟩ "dog" "1" := by
  have htok : tokenize asciiLower "dog" = ["dog"] := by decide
  have e1 : BM25.docFreq asciiLower ⟨3/2, 3/4, [⟨"1", "dog cat"⟩]⟩ "dog" = 1 := by decide
  have e2 : BM25.termFreq asciiLower ⟨3/2, 3/4, [⟨"1", "dog cat"⟩]⟩ "1" "dog" = 1 := by
    decide
  have e3 : BM25.docLength asciiLower ⟨3/2, 3/4, [⟨"1", "dog cat"⟩]⟩ "1" = 2 := by decide
  have e4 : BM25.docCount ⟨3/2, 3/4, [⟨"1", "dog cat"⟩]⟩ = 1 := by decide
  have e5 : BM25.avgdl asciiLower ⟨3/2, 3/4, [⟨"1", "dog cat"⟩]⟩ = 2 := by
    have ht : BM25.totalLength asciiLower ⟨3/2, 3/4, [⟨"1", "dog cat"⟩]⟩ = 2 := by decide
    rw [BM25.avgdl, ht, e4]
    norm_num
  have f1 : BM25.docFreq asciiLower ⟨3/2, 3/4, [⟨"1", "dog"⟩]⟩ "dog" = 1 := by decide
  have f2 : BM25.termFreq asciiLower ⟨3/2, 3/4, [⟨"1", "dog"⟩]⟩ "1" "dog" = 1 := by decide
  have f3 : BM25.docLength asciiLower ⟨3/2, 3/4, [⟨"1", "dog"⟩]⟩ "1" = 1 := by decide
  have f4 : BM25.docCount ⟨3/2, 3/4, [⟨"1", "dog"⟩]⟩ = 1 := by decide
  have f5 : BM25.avgdl asciiLower ⟨3/2, 3/4, [⟨"1", "dog"⟩]⟩ = 1 := by
    have ht : BM25.totalLength asciiLower ⟨3/2, 3/4, [⟨"1", "dog"⟩]⟩ = 1 := by decide
    rw [BM25.avgdl, ht, f4]
    norm_num
  unfold BM25.docScore bm25DocScoreStats
  rw [htok]
  simp only [List.map_cons, List.map_nil, List.sum_cons, List.sum_nil]
  rw [e1, e2, e3, e4, e5, f1, f2, f3, f4, f5]
  norm_num [bm25TermScoreRaw, linLog]

/-- Concrete instance of the amended claim C7: with a second nonempty
document in the corpus, padding leaves the b = 0 score unchanged and
strictly lowers the b = 3/4 score. -/
theorem bm25_length_normalization_witness :
    BM25.docScore asciiLower linLog
        ⟨3/2, 0, [⟨"1", "dog cat"⟩, ⟨"2", "fish"⟩]⟩ "dog" "1" =
      BM25.docScore asciiLower linLog
        ⟨3/2, 0, [⟨"1", "dog"⟩, ⟨"2", "fish"⟩]⟩ "dog" "1" ∧
    BM25.docScore asciiLower linLog
        ⟨3/2, 3/4, [⟨"1", "dog cat"⟩, ⟨"2", "fish"⟩]⟩ "dog" "1" <
      BM25.docScore asciiLower linLog
        ⟨3/2, 3/4, [⟨"1", "dog"⟩, ⟨"2", "fish"⟩]⟩ "dog" "1" := by
  have h := bm25_length_normalization asciiLower linLog
    (fun x hx => by simp only [linLog]; linarith)
    (fun x hx => by simp only [linLog]; linarith)
    (3/2) [] [⟨"2", "fish"⟩] ⟨"1", "dog"⟩ ⟨"1", "dog cat"⟩ ["cat"]
    rfl (by decide) (by decide) "dog" (by decide) (by decide)
  exact ⟨h.1, h.2 (by norm_num) ⟨"dog", by decide, by decide⟩ (by decide)⟩

end VectorStores

namespace VectorStores

/-! ## Characterising the combinedScores dictionary -/

variable {ν : Type}

theorem hasId_eq_false_iff (acc : List (RRFEntry ν)) (x : String) :
    hasId acc x = false ↔ ∀ e ∈ acc, e.id ≠ x := by
  unfold hasId
  rw [← Bool.not_eq_true, List.any_eq_true]
  push_neg
  simp

theorem setEntry_of_hasId_false (e : RRFEntry ν) (acc : List (RRFEntry ν))
    (h : hasId acc e.id = false) : setEntry e acc = acc ++ [e] := by
  induction acc with
  | nil => rfl
  | cons x xs ih =>
    have hx : x.id ≠ e.id := (hasId_eq_false_iff _ _).mp h x (List.mem_cons_self _ _)
    have hxs : hasId xs e.id = false := by
      rw [hasId_eq_false_iff]
      intro y hy
      exact (hasId_eq_false_iff _ _).mp h y (List.mem_cons_of_mem _ hy)
    unfold setEntry
    rw [if_neg hx, ih hxs]
    rfl

theorem addScore_ids (id : String) (d : ℚ) (acc : List (RRFEntry ν)) :
    (addScore id d acc).map RRFEntry.id = acc.map RRFEntry.id := by
  induction acc with
  | nil => rfl
  | cons x xs ih =>
    unfold addScore
    by_cases hx : x.id = id
    · rw [if_pos hx]
      simp
    · rw [if_neg hx]
      simp [ih]

theorem hasId_eq_any_map (acc : List (RRFEntry ν)) (x : String) :
    hasId acc x = (acc.map RRFEntry.id).any (fun i => decide (i = x)) := by
  induction acc with
  | nil => rfl
  | cons e es ih =>
    unfold hasId at ih ⊢
    simp only [List.any_cons, List.map_cons]
    rw [ih]

theorem hasId_addScore (id : String) (d : ℚ) (acc : List (RRFEntry ν)) (x : String) :
    hasId (addScore id d acc) x = hasId acc x := by
  rw [hasId_eq_any_map, hasId_eq_any_map, addScore_ids]

theorem addScore_eq_map (id : String) (d : ℚ) (acc : List (RRFEntry ν))
    (h : (acc.map RRFEntry.id).Nodup) :
    addScore id d acc =
      acc.map (fun e => if e.id = id then ⟨e.id, e.score + d, e.node⟩ else e) := by
  induction acc with
  | nil => rfl
  | cons x xs ih =>
    rw [List.map_cons] at h ⊢
    have hx : x.id ∉ xs.map RRFEntry.id := (List.nodup_cons.mp h).1
    have hxs := (List.nodup_cons.mp h).2
    unfold addScore
    by_cases hcase : x.id = id
    · rw [if_pos hcase, if_pos hcase]
      have hmap : xs.map (fun e => if e.id = id then (⟨e.id, e.score + d, e.node⟩ : RRFEntry ν) else e) = xs.map (fun e => e) := by
        apply List.map_congr_left
        intro e he
        have hne : e.id ≠ id := by
          intro hee
          exact hx (by rw [hcase, ← hee]; exact List.mem_map_of_mem _ he)
        rw [if_neg hne]
      rw [hmap, List.map_id']
    · rw [if_neg hcase, if_neg hcase, ih hxs]

theorem mem_setEntry (x e : RRFEntry ν) (acc : List (RRFEntry ν))
    (h : x ∈ setEntry e acc) : x = e ∨ x ∈ acc := by
  induction acc with
  | nil =>
    simp only [setEntry] at h
    rcases List.mem_singleton.mp h with h1
    exact Or.inl h1
  | cons y ys ih =>
    unfold setEntry at h
    by_cases hy : y.id = e.id
    · rw [if_pos hy] at h
      rcases List.mem_cons.mp h with h1 | h1
      · exact Or.inl h1
      · exact Or.inr (List.mem_cons_of_mem _ h1)
    · rw [if_neg hy] at h
      rcases List.mem_cons.mp h with h1 | h1
      · exact Or.inr (h1 ▸ List.mem_cons_self _ _)
      · rcases ih h1 with h2 | h2
        · exact Or.inl h2
        · exact Or.inr (List.mem_cons_of_mem _ h2)

theorem mem_addScore (x : RRFEntry ν) (id : String) (d : ℚ)
    (acc : List (RRFEntry ν)) (h : x ∈ addScore id d acc) :
    ∃ y ∈ acc, x.id = y.id := by
  induction acc with
  | nil =>
    simp [addScore] at h
  | cons y ys ih =>
    unfold addScore at h
    by_cases hy : y.id = id
    · rw [if_pos hy] at h
      rcases List.mem_cons.mp h with h1 | h1
      · exact ⟨y, List.mem_cons_self _ _, by rw [h1]⟩
      · exact ⟨x, List.mem_cons_of_mem _ h1, rfl⟩
    · rw [if_neg hy] at h
      rcases List.mem_cons.mp h with h1 | h1
      · exact ⟨y, List.mem_cons_self _ _, by rw [h1]⟩
      · obtain ⟨z, hz, hzid⟩ := ih h1
        exact ⟨z, List.mem_cons_of_mem _ hz, hzid⟩

end VectorStores

namespace VectorStores

variable {ν : Type}

/-- The entry the vector pass stores for an enumerated id whose node
exists. -/
def vecEntryOf (alpha : ℚ) (nodes : Option (List ν)) (p : ℕ × String) :
    Option (RRFEntry ν) :=
  (getNodeAt nodes p.1).map (fun nd => ⟨p.2, rrfScore (p.1 + 1) * alpha, nd⟩)

/-- The vector pass output on well-formed (duplicate-free) input. -/
def vecEntries (vr : QueryResult ν) (alpha : ℚ) : List (RRFEntry ν) :=
  vr.ids.enum.filterMap (vecEntryOf alpha vr.nodes)

/-- The lexical-pass update of one existing entry: add the BM25 rank
contribution when the entry's id occurs in the enumerated BM25 id list. -/
def bmAdd (alpha : ℚ) (l : List (ℕ × String)) (e : RRFEntry ν) : RRFEntry ν :=
  match l.find? (fun p => decide (p.2 = e.id)) with
  | some p => ⟨e.id, e.score + rrfScore (p.1 + 1) * (1 - alpha), e.node⟩
  | none => e

/-- The entry the lexical pass appends for an id that is not yet in the
dictionary and whose node exists. -/
def newEntryOf (alpha : ℚ) (nodes : Option (List ν)) (acc : List (RRFEntry ν))
    (p : ℕ × String) : Option (RRFEntry ν) :=
  if hasId acc p.2 then none
  else (getNodeAt nodes p.1).map (fun nd => ⟨p.2, rrfScore (p.1 + 1) * (1 - alpha), nd⟩)

theorem bmAdd_id (alpha : ℚ) (l : List (ℕ × String)) (e : RRFEntry ν) :
    (bmAdd alpha l e).id = e.id := by
  unfold bmAdd
  cases l.find? (fun p => decide (p.2 = e.id)) <;> rfl

theorem bmAdd_node (alpha : ℚ) (l : List (ℕ × String)) (e : RRFEntry ν) :
    (bmAdd alpha l e).node = e.node := by
  unfold bmAdd
  cases l.find? (fun p => decide (p.2 = e.id)) <;> rfl

theorem bmAdd_nil (alpha : ℚ) (e : RRFEntry ν) : bmAdd alpha [] e = e := rfl

theorem bmAdd_cons_ne (alpha : ℚ) (p : ℕ × String) (l : List (ℕ × String))
    (e : RRFEntry ν) (h : p.2 ≠ e.id) :
    bmAdd alpha (p :: l) e = bmAdd alpha l e := by
  unfold bmAdd
  rw [List.find?_cons_of_neg _ (by simpa using h)]

theorem bmAdd_cons_eq (alpha : ℚ) (p : ℕ × String) (l : List (ℕ × String))
    (e : RRFEntry ν) (h : p.2 = e.id) :
    bmAdd alpha (p :: l) e = ⟨e.id, e.score + rrfScore (p.1 + 1) * (1 - alpha), e.node⟩ := by
  unfold bmAdd
  rw [List.find?_cons_of_pos _ (by simpa using h)]

theorem bmAdd_not_mem (alpha : ℚ) (l : List (ℕ × String)) (e : RRFEntry ν)
    (h : ∀ q ∈ l, q.2 ≠ e.id) : bmAdd alpha l e = e := by
  unfold bmAdd
  rw [List.find?_eq_none.mpr (fun q hq => by simpa using h q hq)]

theorem hasId_append_single (acc : List (RRFEntry ν)) (e : RRFEntry ν) (x : String) :
    hasId (acc ++ [e]) x = (hasId acc x || decide (e.id = x)) := by
  unfold hasId
  rw [List.any_append]
  simp

theorem foldl_vecStep_eq (alpha : ℚ) (nodes : Option (List ν))
    (l : List (ℕ × String)) (acc : List (RRFEntry ν))
    (hnodup : (l.map Prod.snd).Nodup)
    (hfresh : ∀ p ∈ l, hasId acc p.2 = false) :
    l.foldl (vecStep alpha nodes) acc =
      acc ++ l.filterMap (vecEntryOf alpha nodes) := by
  induction l generalizing acc with
  | nil => simp
  | cons p l ih =>
    rw [List.map_cons, List.nodup_cons] at hnodup
    rw [List.foldl_cons]
    cases hnode : getNodeAt nodes p.1 with
    | none =>
      have hstep : vecStep alpha nodes acc p = acc := by
        unfold vecStep
        rw [hnode]
      have hent : vecEntryOf alpha nodes p = none := by
        unfold vecEntryOf
        rw [hnode]
        rfl
      rw [hstep, List.filterMap_cons_none hent]
      exact ih acc hnodup.2 (fun q hq => hfresh q (List.mem_cons_of_mem _ hq))
    | some nd =>
      have hent : vecEntryOf alpha nodes p =
          some ⟨p.2, rrfScore (p.1 + 1) * alpha, nd⟩ := by
        unfold vecEntryOf
        rw [hnode]
        rfl
      have hstep : vecStep alpha nodes acc p =
          acc ++ [⟨p.2, rrfScore (p.1 + 1) * alpha, nd⟩] := by
        unfold vecStep
        rw [hnode]
        exact setEntry_of_hasId_false _ _ (hfresh p (List.mem_cons_self _ _))
      have hfresh' : ∀ q ∈ l,
          hasId (acc ++ [(⟨p.2, rrfScore (p.1 + 1) * alpha, nd⟩ : RRFEntry ν)]) q.2 = false := by
        intro q hq
        rw [hasId_append_single, hfresh q (List.mem_cons_of_mem _ hq)]
        have : p.2 ≠ q.2 := by
          intro he
          exact hnodup.1 (he ▸ List.mem_map_of_mem Prod.snd hq)
        simp [this]
      rw [hstep, List.filterMap_cons_some hent, ih _ hnodup.2 hfresh']
      simp [List.append_assoc]

theorem vecPass_eq (vr : QueryResult ν) (alpha : ℚ) (h : vr.ids.Nodup) :
    (vr.ids.enum).foldl (vecStep alpha vr.nodes) [] = vecEntries vr alpha := by
  have hres := foldl_vecStep_eq alpha vr.nodes vr.ids.enum []
    (by rw [List.enum_map_snd]; exact h) (fun p _ => rfl)
  simpa [vecEntries] using hres

theorem foldl_bm25Step_eq (alpha : ℚ) (nodes : Option (List ν))
    (l : List (ℕ × String)) (acc : List (RRFEntry ν))
    (hnodup : (l.map Prod.snd).Nodup)
    (haccn : (acc.map RRFEntry.id).Nodup) :
    l.foldl (bm25Step alpha nodes) acc =
      acc.map (bmAdd alpha l) ++ l.filterMap (newEntryOf alpha nodes acc) := by
  induction l generalizing acc with
  | nil =>
    simp only [List.foldl_nil, List.filterMap_nil, List.append_nil]
    rw [List.map_congr_left (fun e _ => bmAdd_nil alpha e), List.map_id']
  | cons p l ih =>
    rw [List.map_cons, List.nodup_cons] at hnodup
    obtain ⟨hp2, hln⟩ := hnodup
    have hpne : ∀ q ∈ l, q.2 ≠ p.2 := by
      intro q hq he
      exact hp2 (he ▸ List.mem_map_of_mem Prod.snd hq)
    rw [List.foldl_cons]
    by_cases hhas : hasId acc p.2 = true
    · have hstep : bm25Step alpha nodes acc p =
          addScore p.2 (rrfScore (p.1 + 1) * (1 - alpha)) acc := by
        unfold bm25Step
        rw [if_pos hhas]
      rw [hstep, ih _ hln (by rw [addScore_ids]; exact haccn)]
      have hmapeq : (addScore p.2 (rrfScore (p.1 + 1) * (1 - alpha)) acc).map (bmAdd alpha l) =
          acc.map (bmAdd alpha (p :: l)) := by
        rw [addScore_eq_map _ _ _ haccn, List.map_map]
        apply List.map_congr_left
        intro e _
        by_cases hid : e.id = p.2
        · show bmAdd alpha l (if e.id = p.2 then ⟨e.id, e.score + rrfScore (p.1 + 1) * (1 - alpha), e.node⟩ else e) =
            bmAdd alpha (p :: l) e
          rw [if_pos hid, bmAdd_cons_eq alpha p l e (by rw [hid]),
            bmAdd_not_mem alpha l _ (fun q hq => by
              show q.2 ≠ e.id
              rw [hid]
              exact hpne q hq)]
        · show bmAdd alpha l (if e.id = p.2 then ⟨e.id, e.score + rrfScore (p.1 + 1) * (1 - alpha), e.node⟩ else e) =
            bmAdd alpha (p :: l) e
          rw [if_neg hid, bmAdd_cons_ne alpha p l e (fun he => hid he.symm)]
      have hnew : l.filterMap (newEntryOf alpha nodes
            (addScore p.2 (rrfScore (p.1 + 1) * (1 - alpha)) acc)) =
          (p :: l).filterMap (newEntryOf alpha nodes acc) := by
        rw [List.filterMap_cons_none (by unfold newEntryOf; rw [if_pos hhas])]
        apply List.filterMap_congr
        intro q _
        unfold newEntryOf
        rw [hasId_addScore]
      rw [hmapeq, hnew]
    · have hhasf : hasId acc p.2 = false := by
        revert hhas
        cases hasId acc p.2 <;> simp
      have haccne : ∀ e ∈ acc, e.id ≠ p.2 := (hasId_eq_false_iff _ _).mp hhasf
      have hmapeq0 : acc.map (bmAdd alpha l) = acc.map (bmAdd alpha (p :: l)) := by
        apply List.map_congr_left
        intro e he
        rw [bmAdd_cons_ne alpha p l e (fun he2 => haccne e he he2.symm)]
      cases hnode : getNodeAt nodes p.1 with
      | none =>
        have hstep : bm25Step alpha nodes acc p = acc := by
          unfold bm25Step
          rw [if_neg (by rw [hhasf]; exact Bool.false_ne_true), hnode]
        rw [hstep, ih acc hln haccn,
          List.filterMap_cons_none (by unfold newEntryOf; rw [hhasf, hnode]; rfl), hmapeq0]
      | some nd =>
        have hstep : bm25Step alpha nodes acc p =
            acc ++ [⟨p.2, rrfScore (p.1 + 1) * (1 - alpha), nd⟩] := by
          unfold bm25Step
          rw [if_neg (by rw [hhasf]; exact Bool.false_ne_true), hnode]
        have haccn' : ((acc ++ [(⟨p.2, rrfScore (p.1 + 1) * (1 - alpha), nd⟩ : RRFEntry ν)]).map
            RRFEntry.id).Nodup := by
          rw [List.map_append]
          rw [List.nodup_append]
          refine ⟨haccn, List.nodup_singleton _, ?_⟩
          intro x hx hx2
          obtain ⟨e, he, rfl⟩ := List.mem_map.mp hx
          have : e.id = p.2 := by simpa using hx2
          exact haccne e he this
        rw [hstep, ih _ hln haccn']
        have hent : newEntryOf alpha nodes acc p =
            some ⟨p.2, rrfScore (p.1 + 1) * (1 - alpha), nd⟩ := by
          unfold newEntryOf
          rw [hhasf, hnode]
          rfl
        rw [List.filterMap_cons_some hent]
        have hbm : bmAdd alpha l (⟨p.2, rrfScore (p.1 + 1) * (1 - alpha), nd⟩ : RRFEntry ν) =
            ⟨p.2, rrfScore (p.1 + 1) * (1 - alpha), nd⟩ :=
          bmAdd_not_mem alpha l _ (fun q hq => hpne q hq)
        have hnew2 : l.filterMap (newEntryOf alpha nodes
              (acc ++ [(⟨p.2, rrfScore (p.1 + 1) * (1 - alpha), nd⟩ : RRFEntry ν)])) =
            l.filterMap (newEntryOf alpha nodes acc) := by
          apply List.filterMap_congr
          intro q hq
          unfold newEntryOf
          rw [hasId_append_single]
          have : decide ((⟨p.2, rrfScore (p.1 + 1) * (1 - alpha), nd⟩ : RRFEntry ν).id = q.2) = false := by
            simpa using (hpne q hq ∘ Eq.symm)
          rw [this, Bool.or_false]
        rw [List.map_append, List.map_singleton, hbm, hmapeq0, hnew2,
          List.append_assoc]
        rfl

/-- The combinedScores dictionary on duplicate-free inputs: the vector
entries (with their lexical contribution added in place) followed by the
appended lexical-only entries. -/
theorem combinedMap_eq (vr br : QueryResult ν) (alpha : ℚ)
    (hv : vr.ids.Nodup) (hb : br.ids.Nodup) :
    combinedMap vr br alpha =
      (vecEntries vr alpha).map (bmAdd alpha br.ids.enum) ++
        br.ids.enum.filterMap (newEntryOf alpha br.nodes (vecEntries vr alpha)) := by
  unfold combinedMap
  rw [vecPass_eq vr alpha hv]
  apply foldl_bm25Step_eq
  · rw [List.enum_map_snd]
    exact hb
  · unfold vecEntries
    have : ∀ (l : List (ℕ × String)),
        ((l.filterMap (vecEntryOf alpha vr.nodes)).map RRFEntry.id).Sublist
          (l.map Prod.snd) := by
      intro l
      induction l with
      | nil => simp
      | cons p l ih =>
        cases hnode : getNodeAt vr.nodes p.1 with
        | none =>
          rw [List.filterMap_cons_none (by unfold vecEntryOf; rw [hnode]; rfl),
            List.map_cons]
          exact ih.cons _
        | some nd =>
          rw [List.filterMap_cons_some
            (by unfold vecEntryOf; rw [hnode]; rfl), List.map_cons, List.map_cons]
          exact ih.cons₂ _
    exact ((this vr.ids.enum).trans (by rw [List.enum_map_snd])).nodup hv

end VectorStores

namespace VectorStores

variable {ν : Type}

theorem mem_enum_iff {α : Type} (l : List α) (i : ℕ) (a : α) :
    (i, a) ∈ l.enum ↔ l[i]? = some a := by
  constructor
  · intro h
    obtain ⟨hlt, heq⟩ := List.mem_enum h
    exact List.getElem?_eq_some_iff.mpr ⟨hlt, heq.symm⟩
  · intro h
    have henum := List.getElem?_enum l i
    rw [h] at henum
    have heq2 : l.enum[i]? = some (i, a) := by rw [henum]; rfl
    obtain ⟨hlt, heq⟩ := List.getElem?_eq_some_iff.mp heq2
    rw [← heq]
    exact List.getElem_mem hlt

theorem find?_enumFrom_of_nodup {α : Type} [DecidableEq α] (l : List α)
    (n i : ℕ) (a : α) (hnodup : l.Nodup) (h : l[i]? = some a) :
    (List.enumFrom n l).find? (fun p => decide (p.2 = a)) = some (n + i, a) := by
  induction l generalizing n i with
  | nil => simp at h
  | cons x xs ih =>
    rw [List.nodup_cons] at hnodup
    cases i with
    | zero =>
      have hx : x = a := by simpa using h
      subst hx
      rw [List.enumFrom_cons, List.find?_cons_of_pos _ (by simp)]
      rfl
    | succ j =>
      have hxs : xs[j]? = some a := by simpa using h
      have hxa : x ≠ a := by
        intro he
        subst he
        apply hnodup.1
        obtain ⟨hlt, heq⟩ := List.getElem?_eq_some_iff.mp hxs
        rw [← heq]
        exact List.getElem_mem hlt
      rw [List.enumFrom_cons, List.find?_cons_of_neg _ (by simpa using hxa),
        ih (n + 1) j hnodup.2 hxs]
      have : n + 1 + j = n + (j + 1) := by omega
      rw [this]

theorem find?_enum_of_nodup (l : List String) (i : ℕ) (a : String)
    (hnodup : l.Nodup) (h : l[i]? = some a) :
    l.enum.find? (fun p => decide (p.2 = a)) = some (i, a) := by
  have hres := find?_enumFrom_of_nodup l 0 i a hnodup h
  simpa [List.enum] using hres

theorem rrfContrib_of_getElem (ids : List String) (i : ℕ) (id : String)
    (hnodup : ids.Nodup) (h : ids[i]? = some id) :
    rrfContrib ids id = rrfScore (i + 1) := by
  unfold rrfContrib
  rw [find?_enum_of_nodup ids i id hnodup h]

theorem rrfContrib_of_not_mem (ids : List String) (id : String) (h : id ∉ ids) :
    rrfContrib ids id = 0 := by
  unfold rrfContrib
  rw [List.find?_eq_none.mpr ?_]
  intro p hp
  obtain ⟨i, x⟩ := p
  simp only [decide_eq_true_eq]
  intro he
  obtain ⟨hlt, heq⟩ := List.mem_enum hp
  exact h (he ▸ heq ▸ List.getElem_mem hlt)

theorem bmAdd_score_enum (alpha : ℚ) (ids : List String) (e : RRFEntry ν) :
    (bmAdd alpha ids.enum e).score = e.score + (1 - alpha) * rrfContrib ids e.id := by
  unfold bmAdd rrfContrib
  cases hfind : ids.enum.find? (fun p => decide (p.2 = e.id)) with
  | none => simp
  | some p =>
    show e.score + rrfScore (p.1 + 1) * (1 - alpha) = e.score + (1 - alpha) * rrfScore (p.1 + 1)
    ring

/-- A well-formed query result: the nodes array is present and covers every
id (this is how both scorers of the hybrid pipeline produce their
results). -/
def fullNodes (r : QueryResult ν) : Prop :=
  ∃ ns, r.nodes = some ns ∧ r.ids.length ≤ ns.length

theorem getNodeAt_of_full (r : QueryResult ν) (h : fullNodes r) (i : ℕ)
    (hi : i < r.ids.length) : ∃ nd, getNodeAt r.nodes i = some nd := by
  obtain ⟨ns, hns, hlen⟩ := h
  unfold getNodeAt
  rw [hns]
  have hilt : i < ns.length := lt_of_lt_of_le hi hlen
  exact ⟨ns[i], by simp [List.getElem?_eq_some_iff.mpr ⟨hilt, rfl⟩]⟩

theorem vecEntries_ids_of_full (vr : QueryResult ν) (alpha : ℚ)
    (h : fullNodes vr) :
    (vecEntries vr alpha).map RRFEntry.id = vr.ids := by
  unfold vecEntries
  have hgen : ∀ (l : List (ℕ × String)),
      (∀ p ∈ l, ∃ nd, getNodeAt vr.nodes p.1 = some nd) →
      (l.filterMap (vecEntryOf alpha vr.nodes)).map RRFEntry.id = l.map Prod.snd := by
    intro l hl
    induction l with
    | nil => rfl
    | cons p l ih =>
      obtain ⟨nd, hnd⟩ := hl p (List.mem_cons_self _ _)
      rw [List.filterMap_cons_some (by unfold vecEntryOf; rw [hnd]; rfl),
        List.map_cons, List.map_cons,
        ih (fun q hq => hl q (List.mem_cons_of_mem _ hq))]
  rw [hgen vr.ids.enum ?_, List.enum_map_snd]
  intro p hp
  obtain ⟨i, x⟩ := p
  obtain ⟨hlt, _⟩ := List.mem_enum hp
  exact getNodeAt_of_full vr h i hlt

theorem combinedMap_score (vr br : QueryResult ν) (alpha : ℚ)
    (hv : vr.ids.Nodup) (hb : br.ids.Nodup) (hvf : fullNodes vr) :
    ∀ e ∈ combinedMap vr br alpha, e.score = fusedScore vr br alpha e.id := by
  intro e he
  rw [combinedMap_eq vr br alpha hv hb] at he
  rcases List.mem_append.mp he with he | he
  · obtain ⟨e0, he0, rfl⟩ := List.mem_map.mp he
    obtain ⟨p, hp, hpe⟩ := List.mem_filterMap.mp he0
    obtain ⟨i, x⟩ := p
    unfold vecEntryOf at hpe
    cases hnd : getNodeAt vr.nodes i with
    | none =>
      rw [hnd] at hpe
      exact absurd hpe (by simp)
    | some nd =>
      rw [hnd] at hpe
      have he0eq : e0 = ⟨x, rrfScore (i + 1) * alpha, nd⟩ := by
        have := Option.some.inj hpe
        exact this.symm
      subst he0eq
      rw [bmAdd_score_enum]
      unfold fusedScore
      rw [bmAdd_id]
      have hcv : rrfContrib vr.ids x = rrfScore (i + 1) :=
        rrfContrib_of_getElem vr.ids i x hv ((mem_enum_iff vr.ids i x).mp hp)
      show rrfScore (i + 1) * alpha + (1 - alpha) * rrfContrib br.ids x =
        alpha * rrfContrib vr.ids x + (1 - alpha) * rrfContrib br.ids x
      rw [hcv]
      ring
  · obtain ⟨p, hp, hpe⟩ := List.mem_filterMap.mp he
    obtain ⟨j, x⟩ := p
    unfold newEntryOf at hpe
    by_cases hhas : hasId (vecEntries vr alpha) x = true
    · rw [if_pos hhas] at hpe
      exact absurd hpe (by simp)
    · rw [if_neg hhas] at hpe
      cases hnd : getNodeAt br.nodes j with
      | none =>
        rw [hnd] at hpe
        exact absurd hpe (by simp)
      | some nd =>
        rw [hnd] at hpe
        have heq : e = ⟨x, rrfScore (j + 1) * (1 - alpha), nd⟩ :=
          (Option.some.inj hpe).symm
        subst heq
        unfold fusedScore
        have hhasf : hasId (vecEntries vr alpha) x = false := by
          revert hhas
          cases hasId (vecEntries vr alpha) x <;> simp
        have hnotmem : x ∉ vr.ids := by
          rw [← vecEntries_ids_of_full vr alpha hvf]
          intro hmem
          obtain ⟨e', he', he'id⟩ := List.mem_map.mp hmem
          exact (hasId_eq_false_iff _ _).mp hhasf e' he' he'id
        have hcb : rrfContrib br.ids x = rrfScore (j + 1) :=
          rrfContrib_of_getElem br.ids j x hb ((mem_enum_iff br.ids j x).mp hp)
        show rrfScore (j + 1) * (1 - alpha) =
          alpha * rrfContrib vr.ids x + (1 - alpha) * rrfContrib br.ids x
        rw [rrfContrib_of_not_mem vr.ids x hnotmem, hcb]
        ring

theorem combinedMap_complete (vr br : QueryResult ν) (alpha : ℚ)
    (hv : vr.ids.Nodup) (hb : br.ids.Nodup) (hvf : fullNodes vr)
    (hbf : fullNodes br) :
    ∀ id, (id ∈ vr.ids ∨ id ∈ br.ids) →
      id ∈ (combinedMap vr br alpha).map RRFEntry.id := by
  intro id hid
  rw [combinedMap_eq vr br alpha hv hb, List.map_append]
  have hvec_ids : ((vecEntries vr alpha).map (bmAdd alpha br.ids.enum)).map
      RRFEntry.id = vr.ids := by
    rw [List.map_map]
    have hcomp : (RRFEntry.id ∘ bmAdd alpha br.ids.enum) =
        fun (e : RRFEntry ν) => e.id := by
      funext e
      exact bmAdd_id alpha br.ids.enum e
    rw [hcomp]
    exact vecEntries_ids_of_full vr alpha hvf
  by_cases hin : id ∈ vr.ids
  · apply List.mem_append.mpr (Or.inl ?_)
    rw [hvec_ids]
    exact hin
  · rcases hid with h | h
    · exact absurd h hin
    · apply List.mem_append.mpr (Or.inr ?_)
      obtain ⟨j, hje⟩ := List.mem_iff_getElem?.mp h
      obtain ⟨nd, hnd⟩ := getNodeAt_of_full br hbf j
        (List.getElem?_eq_some_iff.mp hje).1
      apply List.mem_map.mpr
      refine ⟨⟨id, rrfScore (j + 1) * (1 - alpha), nd⟩, ?_, rfl⟩
      apply List.mem_filterMap.mpr
      refine ⟨(j, id), (mem_enum_iff br.ids j id).mpr hje, ?_⟩
      have hhasf : hasId (vecEntries vr alpha) id = false := by
        rw [hasId_eq_false_iff]
        intro e' he' he'id
        apply hin
        rw [← vecEntries_ids_of_full vr alpha hvf]
        exact he'id ▸ List.mem_map_of_mem _ he'
      unfold newEntryOf
      rw [if_neg (by rw [hhasf]; exact Bool.false_ne_true), hnd]
      rfl

end VectorStores

namespace VectorStores

variable {ν : Type}

theorem rrf_trans : ∀ a b c : RRFEntry ν,
    decide (b.score ≤ a.score) = true → decide (c.score ≤ b.score) = true →
    decide (c.score ≤ a.score) = true := by
  intro a b c hab hbc
  simp only [decide_eq_true_eq] at *
  exact le_trans hbc hab

theorem rrf_total : ∀ a b : RRFEntry ν,
    (decide (b.score ≤ a.score) || decide (a.score ≤ b.score)) = true := by
  intro a b
  rcases le_total b.score a.score with h | h <;> simp [h]

/-- Claim C1: on well-formed inputs (duplicate-free id lists, nodes present
for every id) and any alpha and topK > 0, combineResults returns at most
topK entries, sorted non-increasing by the fused score; every returned
entry's score is alpha * rrf(vectorRank) + (1 - alpha) * rrf(lexicalRank)
with 1-indexed ranks and a zero term for a list that does not contain the
id; and every id of either input appears in the output unless the output
was truncated at exactly topK entries. -/
theorem combineResults_rrf_contract (vr br : QueryResult ν) (alpha : ℚ)
    (topK : ℕ) (hv : vr.ids.Nodup) (hb : br.ids.Nodup) (hvf : fullNodes vr)
    (hbf : fullNodes br) (htopK : 0 < topK) :
    (combineResults vr br alpha topK).ids.length ≤ topK ∧
    (combineResults vr br alpha topK).similarities.Pairwise (fun x y => y ≤ x) ∧
    (∀ (i : ℕ) (id : String) (s : ℚ),
      (combineResults vr br alpha topK).ids[i]? = some id →
      (combineResults vr br alpha topK).similarities[i]? = some s →
      s = fusedScore vr br alpha id) ∧
    (∀ id, (id ∈ vr.ids ∨ id ∈ br.ids) →
      id ∈ (combineResults vr br alpha topK).ids ∨
        (combineResults vr br alpha topK).ids.length = topK) := by
  have hids : (combineResults vr br alpha topK).ids =
      (((combinedMap vr br alpha).mergeSort
        (fun a b => decide (b.score ≤ a.score))).take topK).map (fun e => e.id) := rfl
  have hsims : (combineResults vr br alpha topK).similarities =
      (((combinedMap vr br alpha).mergeSort
        (fun a b => decide (b.score ≤ a.score))).take topK).map (fun e => e.score) := rfl
  refine ⟨?_, ?_, ?_, ?_⟩
  · rw [hids, List.length_map, List.length_take]
    exact min_le_left _ _
  · rw [hsims, List.pairwise_map]
    have hsorted := @List.sorted_mergeSort (RRFEntry ν)
        (fun a b => decide (b.score ≤ a.score)) rrf_trans rrf_total
        (combinedMap vr br alpha)
    have hprop : ((combinedMap vr br alpha).mergeSort
        (fun a b => decide (b.score ≤ a.score))).Pairwise
          (fun a b : RRFEntry ν => b.score ≤ a.score) :=
      hsorted.imp (fun h => by simpa using h)
    exact List.Pairwise.sublist (List.take_sublist _ _) hprop
  · intro i id s hid hs
    rw [hids, List.getElem?_map] at hid
    rw [hsims, List.getElem?_map] at hs
    cases htake : (((combinedMap vr br alpha).mergeSort
        (fun a b => decide (b.score ≤ a.score))).take topK)[i]? with
    | none =>
      rw [htake] at hid
      exact absurd hid (by simp)
    | some e =>
      rw [htake] at hid hs
      have hide : e.id = id := by simpa using hid
      have hse : e.score = s := by simpa using hs
      have hmem1 : e ∈ ((combinedMap vr br alpha).mergeSort
          (fun a b => decide (b.score ≤ a.score))).take topK := by
        obtain ⟨hlt, heq⟩ := List.getElem?_eq_some_iff.mp htake
        rw [← heq]
        exact List.getElem_mem hlt
      have hmem2 : e ∈ combinedMap vr br alpha :=
        ((List.mergeSort_perm _ _).mem_iff).mp
          (List.Sublist.mem hmem1 (List.take_sublist _ _))
      rw [← hse, ← hide]
      exact combinedMap_score vr br alpha hv hb hvf e hmem2
  · intro id hid
    have hmem := combinedMap_complete vr br alpha hv hb hvf hbf id hid
    have hmemS : id ∈ ((combinedMap vr br alpha).mergeSort
        (fun a b => decide (b.score ≤ a.score))).map (fun e => e.id) := by
      obtain ⟨e, he, rfl⟩ := List.mem_map.mp hmem
      exact List.mem_map_of_mem _ (((List.mergeSort_perm _ _).mem_iff).mpr he)
    by_cases hlen : ((combinedMap vr br alpha).mergeSort
        (fun a b => decide (b.score ≤ a.score))).length ≤ topK
    · left
      rw [hids, List.take_of_length_le hlen]
      exact hmemS
    · right
      rw [hids, List.length_map, List.length_take]
      omega

/-- Concrete instance of claim C1 on a two-id vector list and an
overlapping one-id BM25 list. -/
theorem combineResults_rrf_contract_witness :
    (combineResults (ν := Unit) ⟨["a", "b"], [9, 8], some [(), ()]⟩
        ⟨["b"], [5], some [()]⟩ (1/2) 2).ids.length ≤ 2 ∧
    (∀ id, (id ∈ (["a", "b"] : List String) ∨ id ∈ (["b"] : List String)) →
      id ∈ (combineResults (ν := Unit) ⟨["a", "b"], [9, 8], some [(), ()]⟩
          ⟨["b"], [5], some [()]⟩ (1/2) 2).ids ∨
        (combineResults (ν := Unit) ⟨["a", "b"], [9, 8], some [(), ()]⟩
          ⟨["b"], [5], some [()]⟩ (1/2) 2).ids.length = 2) := by
  have h := combineResults_rrf_contract (ν := Unit)
    ⟨["a", "b"], [9, 8], some [(), ()]⟩ ⟨["b"], [5], some [()]⟩ (1/2) 2
    (by decide) (by decide) ⟨[(), ()], rfl, by decide⟩ ⟨[()], rfl, by decide⟩
    (by decide)
  exact ⟨h.1, h.2.2.2⟩

end VectorStores

namespace VectorStores

variable {ν : Type}

theorem vecEntries_key_evidence (vr : QueryResult ν) (alpha : ℚ) (id : String)
    (h : id ∈ (vecEntries vr alpha).map RRFEntry.id) :
    ∃ i : ℕ, vr.ids[i]? = some id ∧ (getNodeAt vr.nodes i).isSome = true := by
  obtain ⟨e, he, rfl⟩ := List.mem_map.mp h
  obtain ⟨p, hp, hpe⟩ := List.mem_filterMap.mp he
  obtain ⟨i, x⟩ := p
  unfold vecEntryOf at hpe
  cases hnd : getNodeAt vr.nodes i with
  | none =>
    rw [hnd] at hpe
    exact absurd hpe (by simp)
  | some nd =>
    rw [hnd] at hpe
    have heq : e = ⟨x, rrfScore (i + 1) * alpha, nd⟩ := (Option.some.inj hpe).symm
    subst heq
    exact ⟨i, (mem_enum_iff vr.ids i x).mp hp, by rw [hnd]; rfl⟩

theorem combinedMap_id_evidence (vr br : QueryResult ν) (alpha : ℚ)
    (hv : vr.ids.Nodup) (hb : br.ids.Nodup) :
    ∀ e ∈ combinedMap vr br alpha,
      (∃ i : ℕ, vr.ids[i]? = some e.id ∧ (getNodeAt vr.nodes i).isSome = true) ∨
      (∃ j : ℕ, br.ids[j]? = some e.id ∧ (getNodeAt br.nodes j).isSome = true) := by
  intro e he
  rw [combinedMap_eq vr br alpha hv hb] at he
  rcases List.mem_append.mp he with he | he
  · obtain ⟨e0, he0, rfl⟩ := List.mem_map.mp he
    left
    rw [bmAdd_id]
    exact vecEntries_key_evidence vr alpha e0.id (List.mem_map_of_mem _ he0)
  · obtain ⟨p, hp, hpe⟩ := List.mem_filterMap.mp he
    obtain ⟨j, x⟩ := p
    unfold newEntryOf at hpe
    by_cases hhas : hasId (vecEntries vr alpha) x = true
    · rw [if_pos hhas] at hpe
      exact absurd hpe (by simp)
    · rw [if_neg hhas] at hpe
      cases hnd : getNodeAt br.nodes j with
      | none =>
        rw [hnd] at hpe
        exact absurd hpe (by simp)
      | some nd =>
        rw [hnd] at hpe
        have heq : e = ⟨x, rrfScore (j + 1) * (1 - alpha), nd⟩ :=
          (Option.some.inj hpe).symm
        subst heq
        right
        exact ⟨j, (mem_enum_iff br.ids j x).mp hp, by rw [hnd]; rfl⟩

theorem output_ids_sub_combinedMap (vr br : QueryResult ν) (alpha : ℚ)
    (topK : ℕ) (id : String)
    (h : id ∈ (combineResults vr br alpha topK).ids) :
    ∃ e ∈ combinedMap vr br alpha, e.id = id := by
  have hids : (combineResults vr br alpha topK).ids =
      (((combinedMap vr br alpha).mergeSort
        (fun a b => decide (b.score ≤ a.score))).take topK).map (fun e => e.id) := rfl
  rw [hids] at h
  obtain ⟨e, he, rfl⟩ := List.mem_map.mp h
  exact ⟨e, ((List.mergeSort_perm _ _).mem_iff).mp
    (List.Sublist.mem he (List.take_sublist _ _)), rfl⟩

/-- Claim C10: combineResults silently drops entries without node payloads:
the fused output only contains ids for which at least one input supplied a
node; a vector-side id with no node contributes nothing (its entry, if any,
comes only from the lexical list); a lexical-side id with no node but whose
id already entered from the vector side still receives the lexical rank
contribution; and an id with no node on the vector side and absent from the
lexical list is omitted entirely. -/
theorem combineResults_node_dropping (vr br : QueryResult ν) (alpha : ℚ)
    (topK : ℕ) (hv : vr.ids.Nodup) (hb : br.ids.Nodup) :
    (∀ id ∈ (combineResults vr br alpha topK).ids,
      (∃ i : ℕ, vr.ids[i]? = some id ∧ (getNodeAt vr.nodes i).isSome = true) ∨
      (∃ j : ℕ, br.ids[j]? = some id ∧ (getNodeAt br.nodes j).isSome = true)) ∧
    (∀ (i j : ℕ) (id : String) (nd : ν),
      vr.ids[i]? = some id → getNodeAt vr.nodes i = none →
      br.ids[j]? = some id → getNodeAt br.nodes j = some nd →
      ∃ e ∈ combinedMap vr br alpha, e.id = id ∧
        e.score = rrfScore (j + 1) * (1 - alpha)) ∧
    (∀ (i j : ℕ) (id : String) (nd : ν),
      vr.ids[i]? = some id → getNodeAt vr.nodes i = some nd →
      br.ids[j]? = some id → getNodeAt br.nodes j = none →
      ∃ e ∈ combinedMap vr br alpha, e.id = id ∧
        e.score = rrfScore (i + 1) * alpha + rrfScore (j + 1) * (1 - alpha)) ∧
    (∀ (i : ℕ) (id : String),
      vr.ids[i]? = some id → getNodeAt vr.nodes i = none → id ∉ br.ids →
      id ∉ (combineResults vr br alpha topK).ids) := by
  have hnovec : ∀ (i : ℕ) (id : String), vr.ids[i]? = some id →
      getNodeAt vr.nodes i = none →
      hasId (vecEntries vr alpha) id = false := by
    intro i id hid hnone
    rw [hasId_eq_false_iff]
    intro e' he' he'id
    obtain ⟨i2, hi2, hsome⟩ :=
      vecEntries_key_evidence vr alpha id (he'id ▸ List.mem_map_of_mem _ he')
    have hieq : i = i2 := by
      apply List.getElem?_inj ?_ hv (by rw [hid, hi2])
      exact (List.getElem?_eq_some_iff.mp hid).1
    rw [← hieq, hnone] at hsome
    exact absurd hsome (by simp)
  refine ⟨?_, ?_, ?_, ?_⟩
  · intro id hmem
    obtain ⟨e, he, rfl⟩ := output_ids_sub_combinedMap vr br alpha topK id hmem
    exact combinedMap_id_evidence vr br alpha hv hb e he
  · intro i j id nd hid hnone hjd hjnd
    refine ⟨⟨id, rrfScore (j + 1) * (1 - alpha), nd⟩, ?_, rfl, rfl⟩
    rw [combinedMap_eq vr br alpha hv hb]
    apply List.mem_append.mpr (Or.inr ?_)
    apply List.mem_filterMap.mpr
    refine ⟨(j, id), (mem_enum_iff br.ids j id).mpr hjd, ?_⟩
    unfold newEntryOf
    rw [if_neg (by rw [hnovec i id hid hnone]; exact Bool.false_ne_true), hjnd]
    rfl
  · intro i j id nd hid hisome hjd hjnone
    refine ⟨bmAdd alpha br.ids.enum ⟨id, rrfScore (i + 1) * alpha, nd⟩, ?_, ?_, ?_⟩
    · rw [combinedMap_eq vr br alpha hv hb]
      apply List.mem_append.mpr (Or.inl ?_)
      apply List.mem_map_of_mem
      apply List.mem_filterMap.mpr
      refine ⟨(i, id), (mem_enum_iff vr.ids i id).mpr hid, ?_⟩
      unfold vecEntryOf
      rw [hisome]
      rfl
    · rw [bmAdd_id]
    · rw [bmAdd_score_enum]
      have hcb : rrfContrib br.ids
          ((⟨id, rrfScore (i + 1) * alpha, nd⟩ : RRFEntry ν).id) = rrfScore (j + 1) :=
        rrfContrib_of_getElem br.ids j id hb hjd
      rw [hcb]
      show rrfScore (i + 1) * alpha + (1 - alpha) * rrfScore (j + 1) =
        rrfScore (i + 1) * alpha + rrfScore (j + 1) * (1 - alpha)
      ring
  · intro i id hid hnone hnb hmem
    obtain ⟨e, he, rfl⟩ := output_ids_sub_combinedMap vr br alpha topK id hmem
    rcases combinedMap_id_evidence vr br alpha hv hb e he with ⟨i2, hi2, hsome⟩ | ⟨j, hj, _⟩
    · have hieq : i = i2 := by
        apply List.getElem?_inj ?_ hv (by rw [hid, hi2])
        exact (List.getElem?_eq_some_iff.mp hid).1
      rw [← hieq, hnone] at hsome
      exact absurd hsome (by simp)
    · apply hnb
      obtain ⟨hlt, heq⟩ := List.getElem?_eq_some_iff.mp hj
      rw [← heq]
      exact List.getElem_mem hlt

/-- Concrete instance of claim C10: a vector entry without a node is
dropped; the id still enters from the BM25 side with only the lexical
contribution. -/
theorem combineResults_node_dropping_witness :
    ∃ e ∈ combinedMap (ν := ℕ) ⟨["a"], [1], some []⟩ ⟨["a"], [2], some [7]⟩ (1/2),
      e.id = "a" ∧ e.score = rrfScore 1 * (1 - 1/2) :=
  (combineResults_node_dropping (ν := ℕ) ⟨["a"], [1], some []⟩
      ⟨["a"], [2], some [7]⟩ (1/2) 5 (by decide) (by decide)).2.1
    0 0 "a" 7 rfl rfl rfl rfl

end VectorStores

namespace VectorStores

variable {ν : Type}

theorem rrfScore_pos (r : ℕ) : 0 < rrfScore r := by
  unfold rrfScore RRF_K
  have h : (0:ℚ) < ((60:ℕ):ℚ) + (r:ℚ) := by positivity
  exact div_pos one_pos h

theorem rrfScore_anti (r s : ℕ) (h : r ≤ s) : rrfScore s ≤ rrfScore r := by
  unfold rrfScore RRF_K
  apply one_div_le_one_div_of_le
  · have h60 : (0:ℚ) < ((60:ℕ):ℚ) + (r:ℚ) := by positivity
    exact h60
  · have hc : (r : ℚ) ≤ (s : ℚ) := by exact_mod_cast h
    linarith

theorem output_entry_score (vr br : QueryResult ν) (alpha : ℚ) (topK : ℕ)
    (hv : vr.ids.Nodup) (hb : br.ids.Nodup) (hvf : fullNodes vr)
    (i : ℕ) (id : String)
    (hid : (combineResults vr br alpha topK).ids[i]? = some id) :
    (combineResults vr br alpha topK).similarities[i]? =
      some (fusedScore vr br alpha id) := by
  have hids : (combineResults vr br alpha topK).ids =
      (((combinedMap vr br alpha).mergeSort
        (fun a b => decide (b.score ≤ a.score))).take topK).map (fun e => e.id) := rfl
  have hsims : (combineResults vr br alpha topK).similarities =
      (((combinedMap vr br alpha).mergeSort
        (fun a b => decide (b.score ≤ a.score))).take topK).map (fun e => e.score) := rfl
  rw [hids, List.getElem?_map] at hid
  cases htake : (((combinedMap vr br alpha).mergeSort
      (fun a b => decide (b.score ≤ a.score))).take topK)[i]? with
  | none =>
    rw [htake] at hid
    exact absurd hid (by simp)
  | some e =>
    rw [htake] at hid
    have hide : e.id = id := by simpa using hid
    have hmem : e ∈ combinedMap vr br alpha := by
      have h1 : e ∈ ((combinedMap vr br alpha).mergeSort
          (fun a b => decide (b.score ≤ a.score))).take topK := by
        obtain ⟨hlt, heq⟩ := List.getElem?_eq_some_iff.mp htake
        rw [← heq]
        exact List.getElem_mem hlt
      exact ((List.mergeSort_perm _ _).mem_iff).mp
        (List.Sublist.mem h1 (List.take_sublist _ _))
    rw [hsims, List.getElem?_map, htake]
    have := combinedMap_score vr br alpha hv hb hvf e hmem
    rw [show Option.map (fun e : RRFEntry ν => e.score) (some e) = some e.score from rfl,
      this, hide]

theorem output_sims_sorted (vr br : QueryResult ν) (alpha : ℚ) (topK : ℕ) :
    (combineResults vr br alpha topK).similarities.Pairwise (fun x y => y ≤ x) := by
  have hsims : (combineResults vr br alpha topK).similarities =
      (((combinedMap vr br alpha).mergeSort
        (fun a b => decide (b.score ≤ a.score))).take topK).map (fun e => e.score) := rfl
  rw [hsims, List.pairwise_map]
  have hsorted := @List.sorted_mergeSort (RRFEntry ν)
      (fun a b => decide (b.score ≤ a.score)) rrf_trans rrf_total
      (combinedMap vr br alpha)
  exact List.Pairwise.sublist (List.take_sublist _ _)
    (hsorted.imp (fun h => by simpa using h))

/-- Claim C4: a document present in both lists strictly outranks an
otherwise-equal document present in only one list: with alpha = 1/2, a
document at rank 2 in both lists receives combined score 1/62 while a
document at rank 1 in a single list receives 1/122 < 1/62; for any
alpha strictly between 0 and 1, a document in both lists at rank p
scores strictly more than a document in only one list at any rank q ≥ p;
and whenever the dual-presence document's fused score strictly exceeds the
single-presence one's, it appears strictly earlier in the fused output. -/
theorem combineResults_dual_presence_boost (vr br : QueryResult ν)
    (alpha : ℚ) (topK : ℕ) (hv : vr.ids.Nodup) (hb : br.ids.Nodup)
    (hvf : fullNodes vr) (hbf : fullNodes br)
    (ha0 : 0 < alpha) (ha1 : alpha < 1) (x y : String) (p q : ℕ)
    (hxv : vr.ids[p]? = some x) (hxb : br.ids[p]? = some x)
    (hy : (vr.ids[q]? = some y ∧ y ∉ br.ids) ∨
      (br.ids[q]? = some y ∧ y ∉ vr.ids)) :
    (alpha = 1/2 → p = 1 → q = 0 →
      fusedScore vr br alpha x = 1/62 ∧ fusedScore vr br alpha y = 1/122 ∧
        fusedScore vr br alpha y < fusedScore vr br alpha x) ∧
    (p ≤ q → fusedScore vr br alpha y < fusedScore vr br alpha x) ∧
    (∀ i j : ℕ, fusedScore vr br alpha y < fusedScore vr br alpha x →
      (combineResults vr br alpha topK).ids[i]? = some x →
      (combineResults vr br alpha topK).ids[j]? = some y → i < j) := by
  have hfx : fusedScore vr br alpha x =
      alpha * rrfScore (p + 1) + (1 - alpha) * rrfScore (p + 1) := by
    unfold fusedScore
    rw [rrfContrib_of_getElem vr.ids p x hv hxv,
      rrfContrib_of_getElem br.ids p x hb hxb]
  have hfy : fusedScore vr br alpha y = alpha * rrfScore (q + 1) ∨
      fusedScore vr br alpha y = (1 - alpha) * rrfScore (q + 1) := by
    rcases hy with ⟨hyv, hynb⟩ | ⟨hyb, hynv⟩
    · left
      unfold fusedScore
      rw [rrfContrib_of_getElem vr.ids q y hv hyv,
        rrfContrib_of_not_mem br.ids y hynb]
      ring
    · right
      unfold fusedScore
      rw [rrfContrib_of_getElem br.ids q y hb hyb,
        rrfContrib_of_not_mem vr.ids y hynv]
      ring
  refine ⟨?_, ?_, ?_⟩
  · intro haeq hp hq
    subst haeq hp hq
    have h2 : rrfScore 2 = 1/62 := by norm_num [rrfScore, RRF_K]
    have h1 : rrfScore 1 = 1/61 := by norm_num [rrfScore, RRF_K]
    have hx62 : fusedScore vr br (1/2) x = 1/62 := by
      rw [hfx, h2]
      norm_num
    have hy122 : fusedScore vr br (1/2) y = 1/122 := by
      rcases hfy with h | h <;> rw [h, h1] <;> norm_num
    exact ⟨hx62, hy122, by rw [hx62, hy122]; norm_num⟩
  · intro hpq
    have hmono : rrfScore (q + 1) ≤ rrfScore (p + 1) :=
      rrfScore_anti (p + 1) (q + 1) (by omega)
    have hpos : 0 < rrfScore (p + 1) := rrfScore_pos (p + 1)
    have hposq : 0 < rrfScore (q + 1) := rrfScore_pos (q + 1)
    rw [hfx]
    rcases hfy with h | h <;> rw [h] <;> nlinarith
  · intro i j hlt hxi hyj
    by_contra hcon
    push_neg at hcon
    have hsx := output_entry_score vr br alpha topK hv hb hvf i x hxi
    have hsy := output_entry_score vr br alpha topK hv hb hvf j y hyj
    rcases Nat.lt_or_ge j i with hji | hij
    · have hsorted := output_sims_sorted vr br alpha topK
      rw [List.pairwise_iff_getElem] at hsorted
      obtain ⟨hjlt, hjeq⟩ := List.getElem?_eq_some_iff.mp hsy
      obtain ⟨hilt, hieq⟩ := List.getElem?_eq_some_iff.mp hsx
      have := hsorted j i hjlt hilt hji
      rw [hjeq, hieq] at this
      exact absurd hlt (by linarith)
    · have hij2 : i = j := by omega
      subst hij2
      rw [hxi] at hyj
      have : x = y := Option.some.inj hyj
      subst this
      exact absurd hlt (lt_irrefl _)

/-- Concrete instance of claim C4: with alpha = 1/2, the id "x" at rank 2
in both lists scores 1/62 and the id "y" at rank 1 in the vector list only
scores 1/122 < 1/62. -/
theorem combineResults_dual_presence_boost_witness :
    fusedScore (ν := Unit) ⟨["y", "x"], [1, 2], some [(), ()]⟩
        ⟨["z", "x"], [3, 4], some [(), ()]⟩ (1/2) "x" = 1/62 ∧
    fusedScore (ν := Unit) ⟨["y", "x"], [1, 2], some [(), ()]⟩
        ⟨["z", "x"], [3, 4], some [(), ()]⟩ (1/2) "y" = 1/122 := by
  have h := (combineResults_dual_presence_boost (ν := Unit)
    ⟨["y", "x"], [1, 2], some [(), ()]⟩ ⟨["z", "x"], [3, 4], some [(), ()]⟩
    (1/2) 5 (by decide) (by decide) ⟨[(), ()], rfl, by decide⟩
    ⟨[(), ()], rfl, by decide⟩ (by norm_num) (by norm_num) "x" "y" 1 0
    rfl rfl (Or.inl ⟨rfl, by decide⟩)).1 rfl rfl rfl
  exact ⟨h.1, h.2.1⟩

end VectorStores
